import Mathlib

/-!
# Mastermind client (`client.c`): candidate elimination, guess selection and wire codec

A shallow embedding of the deduction engine of `client.c`.

* The candidate table `uint16_t color_permutation[COMBINATIONS]` is a `List Nat`; the
  `for (i = 0; i < COMBINATIONS; i++)` loops walk the indices `0 .. COMBINATIONS-1`
  and an index past the end of a shorter list is skipped.
* The guess buffer `uint8_t guess[2]` is a pair `(guess[0], guess[1])` of bytes.
* `int` parameters (`red`, `white`) are `Int`; counters that only ever grow from zero
  are `Nat`, cast to `Int` where the C code compares them with a signed value;
  `uint8_t`/`uint16_t` stores carry an explicit `% 256` / `% 65536` where a value could
  leave the range.
-/

namespace Client

/-! ## Constants -/

abbrev COLOR_SHIFT : Nat := 3
abbrev SLOTS : Nat := 5
abbrev COLORS : Nat := 8
abbrev COMBINATIONS : Nat := 32768
abbrev PARITYPOSITION : Nat := 15
abbrev ELIMINITEBIT : Nat := 0x8000
abbrev COLORFILTER : Nat := 0x7
abbrev STATUS_BYTES : Nat := 6

/-! ## Shared pieces of the two passes -/

/-- The expression `(v & (COLORFILTER<<(COLOR_SHIFT*j)))>>COLOR_SHIFT*j`: colour of slot `j`. -/
def color (v j : Nat) : Nat :=
  (v &&& (COLORFILTER <<< (COLOR_SHIFT * j))) >>> (COLOR_SHIFT * j)

/-- The array read `a[j]` of a colour-count array. -/
def elem (a : List Nat) (j : Nat) : Nat := a.getD j 0

/-- The statement `a[c]++` on an array of `uint8_t`. -/
def incr (a : List Nat) (c : Nat) : List Nat :=
  a.set c ((elem a c + 1) % 256)

/-- A zeroed colour array (`calloc`) filled by `for(i<SLOTS) colors[color]++`. -/
def countColors (v : Nat) : List Nat :=
  (List.range SLOTS).foldl (fun a i => incr a (color v i)) (List.replicate COLORS 0)

/-- The 16-bit value `guess[1]<<8 | guess[0]`. -/
def message (guess : Nat × Nat) : Nat :=
  (guess.2 <<< 8) ||| guess.1

/-! ## `init_color_permutation` -/

/-- The right-hand side of the assignment in `init_color_permutation`, stored in a
`uint16_t`. -/
def permutationEntry (i : Nat) : Nat :=
  (((i &&& (COLORFILTER <<< (4 * COLOR_SHIFT))) >>> (4 * COLOR_SHIFT))
    ||| ((i &&& (COLORFILTER <<< (3 * COLOR_SHIFT))) >>> (2 * COLOR_SHIFT))
    ||| (i &&& (COLORFILTER <<< (2 * COLOR_SHIFT)))
    ||| ((i &&& (COLORFILTER <<< (1 * 3))) <<< (2 * COLOR_SHIFT))
    ||| ((i &&& COLORFILTER) <<< (4 * COLOR_SHIFT))) % 65536

/-- The table after `init_color_permutation`: entry `i` is written for every
`i < COMBINATIONS`, whatever the array held before. -/
def init_color_permutation : List Nat :=
  (List.range COMBINATIONS).map permutationEntry

/-! ## `eliminate_wrongs` -/

/-- The five counters of the colour loop of `eliminate_wrongs`. -/
structure ColorScan where
  colordiff : Nat
  coloreq : Nat
  diffrentcols : Nat
  morecolorsthanrights : Nat
  samecolorocc : Nat
deriving DecidableEq

/-- The loop `for(int j = 0; j < COLORS; j++)` over the colour counts, with its two
`break`s; `n` is the number of iterations left and `j` the loop variable. -/
def colorLoop (colors tmpcolors : List Nat) (kindarights : Nat) :
    Nat → Nat → ColorScan → ColorScan
  | 0, _, st => st
  | n + 1, j, st =>
    let cj := elem colors j
    let tj := elem tmpcolors j
    let st1 : ColorScan :=
      { st with
        colordiff := st.colordiff + Int.natAbs ((cj : Int) - (tj : Int))
        coloreq := if tj ≤ cj then st.coloreq + tj else st.coloreq
        diffrentcols := if tj > 0 ∧ cj = 0 then st.diffrentcols + 1 else st.diffrentcols }
    if cj > kindarights ∧ tj ≥ cj then
      { st1 with morecolorsthanrights := 1 }
    else if kindarights = 0 ∧ (tj ≠ 0 ∧ cj ≠ 0) then
      { st1 with samecolorocc := st1.samecolorocc + 1 }
    else
      colorLoop colors tmpcolors kindarights n (j + 1) st1

/-- The loop computing `permeq`: slots where guess and candidate hold the same colour. -/
def permeqLoop (tmpdata e : Nat) : Nat :=
  (List.range SLOTS).foldl
    (fun p j => if color tmpdata j = color e j then p + 1 else p) 0

/-- The disjunction tested in the last loop of `eliminate_wrongs`. -/
def eliminateCond (sc : ColorScan) (permeq : Nat) (red white : Int) (kindarights : Nat) :
    Bool :=
  decide (sc.samecolorocc > 0)
    || decide (sc.morecolorsthanrights > 0)
    || decide ((permeq : Int) ≠ red)
    || decide (sc.coloreq > kindarights)
    || decide ((sc.diffrentcols : Int) > 5 - (kindarights : Int))
    || decide (((sc.colordiff / 2 : Nat) : Int) > 5 - (kindarights : Int))
    || decide ((permeq : Int) > 5 - white)
    || (decide (red = 0) && decide (white ≠ 0) && decide (permeq > 0))

/-- The last loop `for(j < COLORS) if(cond) { entry |= 0x8000; break; }`; the condition
does not depend on `j`. -/
def flagLoop (cond : Bool) (e : Nat) : Nat → Nat
  | 0 => e
  | n + 1 => if cond then e ||| 0x8000 else flagLoop cond e n

/-- One iteration of the table loop of `eliminate_wrongs` on the entry `e`. -/
def eliminateEntry (tmpdata : Nat) (red white : Int) (e : Nat) : Nat :=
  let kindarights : Nat := ((red + white) % 256).toNat
  let colors := countColors tmpdata
  if e &&& ELIMINITEBIT ≠ 0 then e
  else if e = tmpdata &&& 0x7FFF then e ||| ELIMINITEBIT
  else
    let tmpcolors := countColors e
    let sc := colorLoop colors tmpcolors kindarights COLORS 0 ⟨0, 0, 0, 0, 0⟩
    let permeq := permeqLoop tmpdata e
    flagLoop (eliminateCond sc permeq red white kindarights) e COLORS

/-- The loop `for(int i = 0; i < COMBINATIONS; i++)` of `eliminate_wrongs`: `n` iterations
left, loop variable `i`. -/
def eliminateLoop (step : Nat → Nat) : Nat → Nat → List Nat → List Nat
  | 0, _, t => t
  | n + 1, i, t =>
    match t[i]? with
    | none => eliminateLoop step n (i + 1) t
    | some e => eliminateLoop step n (i + 1) (t.set i (step e))

/-- The function `eliminate_wrongs(guess, red, white, color_permutation)`; returns the
table it leaves behind. -/
def eliminate_wrongs (guess : Nat × Nat) (red white : Int) (table : List Nat) : List Nat :=
  eliminateLoop (eliminateEntry (message guess) red white) COMBINATIONS 0 table

/-! ## `set_new_guess` -/

/-- The slot loop of `set_new_guess` on a candidate: colour counts and the `skip` mark,
set as soon as a count exceeds 2. -/
def countColorsSkip (currperm : Nat) : List Nat × Nat :=
  (List.range SLOTS).foldl
    (fun (st : List Nat × Nat) j =>
      let a := incr st.1 (color currperm j)
      (a, if elem a (color currperm j) > 2 then 1 else st.2))
    (List.replicate COLORS 0, 0)

/-- The counter `coldiff`: colours of the candidate that the previous guess lacks. -/
def coldiffLoop (colors tmpcolors : List Nat) : Nat :=
  (List.range COLORS).foldl
    (fun n j => if elem tmpcolors j > 0 ∧ elem colors j = 0 then n + 1 else n) 0

/-- The counter `diffrentcolors`: colours occurring in the candidate. -/
def diffrentcolorsLoop (tmpcolors : List Nat) : Nat :=
  (List.range COLORS).foldl (fun n j => if elem tmpcolors j > 0 then n + 1 else n) 0

/-- The variables the table loop of `set_new_guess` updates. -/
structure Scan where
  chosen : Nat
  tmpguess : Nat
  preferedguess : Int
deriving DecidableEq

/-- The loop `for(int i = 0; i < COMBINATIONS; i++)` of `set_new_guess` with its `break`:
`n` iterations left, loop variable `i`. -/
def guessLoop (colors : List Nat) (kindarights : Int) (t : List Nat) :
    Nat → Nat → Scan → Scan
  | 0, _, st => st
  | n + 1, i, st =>
    match t[i]? with
    | none => guessLoop colors kindarights t n (i + 1) st
    | some e =>
      if e &&& ELIMINITEBIT = 0 then
        let st1 : Scan := if st.chosen = 0 then { st with chosen := 1, tmpguess := e } else st
        let cs := countColorsSkip e
        let coldiff := coldiffLoop colors cs.1
        let diffrentcolors := diffrentcolorsLoop cs.1
        if cs.2 ≠ 0 ∧ kindarights = 0 ∧ diffrentcolors = 3 then
          { st1 with tmpguess := e, preferedguess := -1 }
        else if st1.preferedguess = 0 ∧ kindarights ≥ 1 ∧ coldiff ≥ 2 then
          guessLoop colors kindarights t n (i + 1) { st1 with preferedguess := (e : Int) }
        else
          guessLoop colors kindarights t n (i + 1) st1
      else
        guessLoop colors kindarights t n (i + 1) st

/-- The table loop of `set_new_guess` as a traversal of the entries it visits, in the
order it visits them; `guessLoop` is proved equal to it and the proofs work on it. -/
def guessScan (colors : List Nat) (kindarights : Int) : List Nat → Scan → Scan
  | [], st => st
  | e :: es, st =>
    if e &&& ELIMINITEBIT = 0 then
      let st1 : Scan := if st.chosen = 0 then { st with chosen := 1, tmpguess := e } else st
      let cs := countColorsSkip e
      let coldiff := coldiffLoop colors cs.1
      let diffrentcolors := diffrentcolorsLoop cs.1
      if cs.2 ≠ 0 ∧ kindarights = 0 ∧ diffrentcolors = 3 then
        { st1 with tmpguess := e, preferedguess := -1 }
      else if st1.preferedguess = 0 ∧ kindarights ≥ 1 ∧ coldiff ≥ 2 then
        guessScan colors kindarights es { st1 with preferedguess := (e : Int) }
      else
        guessScan colors kindarights es st1
    else
      guessScan colors kindarights es st

/-- The value of `tmpguess` when `set_new_guess` reaches the parity computation. -/
def selectGuess (guess : Nat × Nat) (red white : Int) (table : List Nat) : Nat :=
  let tmpguess := message guess
  let colors := countColors tmpguess
  let kindarights : Int := red + white
  let st := guessLoop colors kindarights table COMBINATIONS 0 ⟨0, tmpguess, 0⟩
  if st.preferedguess > 0 then (st.preferedguess % 65536).toNat else st.tmpguess

/-- The loop `for(i < 15) parity_bit ^= tmpguess>>i`. -/
def parityLoop (tmpguess : Nat) : Nat :=
  (List.range 15).foldl (fun p i => p ^^^ (tmpguess >>> i)) 0

/-- The tail of `set_new_guess`: parity bit, then the two bytes `(guess[0], guess[1])`. -/
def encodeGuess (tmpguess : Nat) : Nat × Nat :=
  let withParity := (tmpguess ||| ((parityLoop tmpguess &&& 0x1) <<< PARITYPOSITION)) % 65536
  (withParity &&& 0x00FF, (withParity >>> 8) % 256)

/-- The function `set_new_guess(guess, red, white, color_permutation)`: the new content of
the guess buffer and the table, which the function only reads. -/
def set_new_guess (guess : Nat × Nat) (red white : Int) (table : List Nat) :
    (Nat × Nat) × List Nat :=
  (encodeGuess (selectGuess guess red white table), table)

/-! ## The round loop of `main` -/

/-- The three fields `main` extracts from the reply byte: `(error, red, white)`. -/
def decodeReply (color_reply : Nat) : Nat × Nat × Nat :=
  (color_reply >>> STATUS_BYTES,
   color_reply &&& COLORFILTER,
   (color_reply &&& (COLORFILTER <<< COLOR_SHIFT)) >>> COLOR_SHIFT)

/-- The guess buffer when the round loop starts. -/
def initialGuess : Nat × Nat := (0xDD, 0x6C)

/-- What a run of the round loop leaves behind: the fields of the last reply, the round
counter and the guesses sent, in the order they were sent. -/
structure Run where
  error : Nat
  red : Nat
  white : Nat
  rounds : Nat
  sent : List (Nat × Nat)
deriving DecidableEq

/-- The loop `do { send; read; decode; eliminate_wrongs; set_new_guess; rounds++ }
while(error == 0 && red != 5)` of `main`. The reply byte of each round comes from
`server`, given the round number and the guess sent; `fuel` bounds the number of rounds
and `none` means the bound was reached. -/
def roundLoop (server : Nat → Nat × Nat → Nat) :
    Nat → Nat → Nat × Nat → List Nat → List (Nat × Nat) → Option Run
  | 0, _, _, _, _ => none
  | fuel + 1, rounds, guess, table, sent =>
    let color_reply := server rounds guess % 256
    let error := (decodeReply color_reply).1
    let red := (decodeReply color_reply).2.1
    let white := (decodeReply color_reply).2.2
    let table1 := eliminate_wrongs guess (red : Int) (white : Int) table
    let next := set_new_guess guess (red : Int) (white : Int) table1
    if error = 0 ∧ red ≠ 5 then
      roundLoop server fuel (rounds + 1) next.1 next.2 (sent ++ [guess])
    else
      some ⟨error, red, white, rounds + 1, sent ++ [guess]⟩

/-! ## Vocabulary of the specification -/

/-- Bit `i` of a value. -/
def bit (v i : Nat) : Nat := v / 2 ^ i % 2

/-- The eliminated flag of a candidate entry is its bit 15. -/
def eliminated (e : Nat) : Prop := bit e 15 = 1

instance (e : Nat) : Decidable (eliminated e) := by
  unfold eliminated; infer_instance

/-- The 15-bit combination field (bits 0-14) of an entry or of a guess message. -/
def combination (v : Nat) : Nat := v % 32768

/-- Data model: slot `i` of a combination occupies bits `3i .. 3i+2`. -/
def slot (v i : Nat) : Nat := v / 8 ^ i % 8

/-- The colours of the five slots, slot 0 first. -/
def slots (v : Nat) : List Nat := (List.range SLOTS).map (slot v)

/-- Number of slots holding colour `c` (`guessCount[c]`, `candCount[c]`). -/
def occurrences (v c : Nat) : Nat := (slots v).count c

/-- Red pegs: the number of slots where the two combinations hold the same colour. -/
def exactMatches (g s : Nat) : Nat :=
  (List.range SLOTS).countP (fun j => decide (slot g j = slot s j))

/-- Colour-multiset overlap: the sum over the colours of the smaller count. -/
def overlap (g s : Nat) : Nat :=
  ((List.range COLORS).map (fun c => min (occurrences g c) (occurrences s c))).sum

/-- White pegs of an honest score: the overlap minus the red pegs. -/
def whitePegs (g s : Nat) : Nat := overlap g s - exactMatches g s

/-- The sum `colorEqSum` of the rule table: the candidate's count of every colour that
the candidate holds at most as often as the guess. -/
def colorEqSum (g e : Nat) : Nat :=
  ((List.range COLORS).map
    (fun c => if occurrences e c ≤ occurrences g c then occurrences e c else 0)).sum

/-- The count `diffCols` of the rule table: colours of the candidate absent from the guess. -/
def diffCols (g e : Nat) : Nat :=
  (List.range COLORS).countP (fun c => decide (occurrences e c > 0 ∧ occurrences g c = 0))

/-- The sum over the colours of `|guessCount[c] - candCount[c]|`. -/
def absDiffSum (g e : Nat) : Nat :=
  ((List.range COLORS).map
    (fun c => Int.natAbs ((occurrences g c : Int) - (occurrences e c : Int)))).sum

/-- The value `colorDiff` of the rule table: half the absolute count difference. -/
def colorDiff (g e : Nat) : Nat := absDiffSum g e / 2

/-- The eight conditions of the elimination rule table (specification, section 4.4), in
the order of the table, for the guess `g`, the candidate `e` and the feedback
`(red, white)`; every count runs over all 8 colours and the differences are signed. -/
def ruleTable (g e : Nat) (red white : Int) : Prop :=
  ((exactMatches g e : Int) ≠ red)
  ∨ (∃ c, c < COLORS ∧ (occurrences g c : Int) > red + white
        ∧ occurrences e c ≥ occurrences g c)
  ∨ (red + white = 0 ∧ ∃ c, c < COLORS ∧ occurrences e c > 0 ∧ occurrences g c > 0)
  ∨ ((colorEqSum g e : Int) > red + white)
  ∨ ((diffCols g e : Int) > (SLOTS : Int) - (red + white))
  ∨ ((colorDiff g e : Int) > (SLOTS : Int) - (red + white))
  ∨ ((exactMatches g e : Int) > (SLOTS : Int) - white)
  ∨ (red = 0 ∧ white > 0 ∧ exactMatches g e > 0)

instance (g e : Nat) (red white : Int) : Decidable (ruleTable g e red white) := by
  unfold ruleTable; infer_instance

/-- The number of surviving (not eliminated) entries of a table. -/
def survivors (t : List Nat) : Nat := t.countP (fun e => decide (¬ eliminated e))

/-- The number of distinct colours of a combination. -/
def distinctColours (e : Nat) : Nat :=
  (List.range COLORS).countP (fun c => decide (occurrences e c > 0))

/-- The pattern of the explore rule: exactly 3 distinct colours, one of them occurring at
least 3 times. -/
def explorePattern (e : Nat) : Prop :=
  distinctColours e = 3 ∧ ∃ c, c < COLORS ∧ occurrences e c ≥ 3

instance (e : Nat) : Decidable (explorePattern e) := by
  unfold explorePattern; infer_instance

/-- The lowest-index surviving entry of the table that satisfies `p`. -/
def firstSurviving (p : Nat → Prop) [DecidablePred p] (t : List Nat) : Option Nat :=
  t.find? (fun e => decide (¬ eliminated e ∧ p e))

/-- The selection rule for the next guess, as the specification words it: the explore
rule, else the diversify rule, else the first surviving entry. -/
def selectionRule (g : Nat) (red white : Int) (t : List Nat) : Option Nat :=
  if red + white = 0 ∧ (firstSurviving explorePattern t).isSome then
    firstSurviving explorePattern t
  else if red + white ≥ 1 ∧ (firstSurviving (fun e => diffCols g e ≥ 2) t).isSome then
    firstSurviving (fun e => diffCols g e ≥ 2) t
  else
    firstSurviving (fun _ => True) t

/-- The XOR of bits 0-14 of a value. -/
def xorBits (c : Nat) : Nat := ((List.range 15).map (bit c)).sum % 2

/-- The number of 1-bits among bits 0-15 of a value. -/
def onesCount (m : Nat) : Nat := ((List.range 16).map (bit m)).sum

/-- The reply byte of an honest arbiter that holds `secret`: error 0, red = slots where
guess and secret hold the same colour, white = colour overlap minus red. -/
def honestReply (secret : Nat) (guess : Nat × Nat) : Nat :=
  8 * whitePegs (message guess) secret + exactMatches (message guess) secret

/-! ## The end of `main` -/

abbrev EXIT_PARITY_ERROR : Nat := 2
abbrev EXIT_GAME_LOST : Nat := 3
abbrev EXIT_MULTIPLE_ERRORS : Nat := 4

/-- The value `main` returns after the round loop has ended with the field `error` of
the last reply: the three `if(error == ...)` returns, then `return 0`. -/
def exitStatus (error : Nat) : Nat :=
  if error = 1 then EXIT_PARITY_ERROR
  else if error = 2 then EXIT_GAME_LOST
  else if error = 3 then EXIT_MULTIPLE_ERRORS
  else 0

/-! ## Variants of the filter and further vocabulary -/

/-- The filter `eliminate_wrongs` with its colour loop and its final disjunction replaced
by `loop` and `cond`: one iteration of the table loop. -/
def eliminateEntryWith
    (loop : List Nat → List Nat → Nat → Nat → Nat → ColorScan → ColorScan)
    (cond : ColorScan → Nat → Int → Int → Nat → Bool)
    (tmpdata : Nat) (red white : Int) (e : Nat) : Nat :=
  let kindarights : Nat := ((red + white) % 256).toNat
  let colors := countColors tmpdata
  if e &&& ELIMINITEBIT ≠ 0 then e
  else if e = tmpdata &&& 0x7FFF then e ||| ELIMINITEBIT
  else
    let tmpcolors := countColors e
    let sc := loop colors tmpcolors kindarights COLORS 0 ⟨0, 0, 0, 0, 0⟩
    let permeq := permeqLoop tmpdata e
    flagLoop (cond sc permeq red white kindarights) e COLORS

/-- The filter `eliminate_wrongs` with its colour loop and its final disjunction replaced
by `loop` and `cond`. -/
def eliminate_wrongsWith
    (loop : List Nat → List Nat → Nat → Nat → Nat → ColorScan → ColorScan)
    (cond : ColorScan → Nat → Int → Int → Nat → Bool)
    (guess : Nat × Nat) (red white : Int) (table : List Nat) : List Nat :=
  eliminateLoop (eliminateEntryWith loop cond (message guess) red white) COMBINATIONS 0 table

/-- The disjunction of `eliminate_wrongs` with its last condition
`(red == 0 && white && permeq > 0)` deleted. -/
def eliminateCondNoRule8 (sc : ColorScan) (permeq : Nat) (red white : Int)
    (kindarights : Nat) : Bool :=
  decide (sc.samecolorocc > 0)
    || decide (sc.morecolorsthanrights > 0)
    || decide ((permeq : Int) ≠ red)
    || decide (sc.coloreq > kindarights)
    || decide ((sc.diffrentcols : Int) > 5 - (kindarights : Int))
    || decide (((sc.colordiff / 2 : Nat) : Int) > 5 - (kindarights : Int))
    || decide ((permeq : Int) > 5 - white)

/-- The colour loop of `eliminate_wrongs` with `coloreq` summing
`min(tmpcolors[j], colors[j])` for every colour instead of `tmpcolors[j]` for the colours
with `tmpcolors[j] <= colors[j]`. -/
def colorLoopMin (colors tmpcolors : List Nat) (kindarights : Nat) :
    Nat → Nat → ColorScan → ColorScan
  | 0, _, st => st
  | n + 1, j, st =>
    let cj := elem colors j
    let tj := elem tmpcolors j
    let st1 : ColorScan :=
      { st with
        colordiff := st.colordiff + Int.natAbs ((cj : Int) - (tj : Int))
        coloreq := st.coloreq + min tj cj
        diffrentcols := if tj > 0 ∧ cj = 0 then st.diffrentcols + 1 else st.diffrentcols }
    if cj > kindarights ∧ tj ≥ cj then
      { st1 with morecolorsthanrights := 1 }
    else if kindarights = 0 ∧ (tj ≠ 0 ∧ cj ≠ 0) then
      { st1 with samecolorocc := st1.samecolorocc + 1 }
    else
      colorLoopMin colors tmpcolors kindarights n (j + 1) st1

/-- The pattern 2-2-1 of the documentation of `set_new_guess`: 3 different colours, two
of them occurring twice and one occurring once. -/
def pattern221 (e : Nat) : Prop :=
  distinctColours e = 3
    ∧ (List.range COLORS).countP (fun c => decide (occurrences e c = 2)) = 2
    ∧ (List.range COLORS).countP (fun c => decide (occurrences e c = 1)) = 1

instance (e : Nat) : Decidable (pattern221 e) := by
  unfold pattern221; infer_instance

/-- Valid even parity of a 16-bit guess message: bit 15 is the XOR of bits 0-14. -/
def validParity (m : Nat) : Prop := bit m 15 = xorBits m

instance (m : Nat) : Decidable (validParity m) := by
  unfold validParity; infer_instance

/-! ## Bit-level facts -/

theorem color_eq_slot (v j : Nat) : color v j = slot v j := by
  unfold color slot
  have h8 : (8:Nat) ^ j = 2 ^ (3 * j) := by rw [pow_mul]; norm_num
  rw [h8, ← Nat.shiftRight_eq_div_pow]
  apply Nat.eq_of_testBit_eq
  intro i
  have h7 : (7 : Nat) = 2 ^ 3 - 1 := by norm_num
  have hm : (8 : Nat) = 2 ^ 3 := by norm_num
  rw [hm, Nat.testBit_mod_two_pow]
  simp only [COLORFILTER, COLOR_SHIFT, Nat.testBit_shiftRight, Nat.testBit_and,
    Nat.testBit_shiftLeft]
  rw [h7, Nat.testBit_two_pow_sub_one]
  have : 3 * j + i - 3 * j = i := by omega
  simp [this, Bool.and_comm]

theorem slot_lt (v j : Nat) : slot v j < 8 := by
  unfold slot; omega

theorem and_mask (v k : Nat) : v &&& (7 <<< k) = (v / 2 ^ k % 8) * 2 ^ k := by
  rw [← Nat.shiftRight_eq_div_pow, ← Nat.shiftLeft_eq]
  apply Nat.eq_of_testBit_eq
  intro i
  have h7 : (7 : Nat) = 2 ^ 3 - 1 := by norm_num
  have hm : (8 : Nat) = 2 ^ 3 := by norm_num
  rw [hm]
  simp only [Nat.testBit_and, Nat.testBit_shiftLeft, Nat.testBit_mod_two_pow,
    Nat.testBit_shiftRight]
  rw [h7, Nat.testBit_two_pow_sub_one]
  by_cases h : i ≥ k
  · have : k + (i - k) = i := by omega
    simp [h, this, Bool.and_comm]
  · simp [h]

theorem or_digits (a b c d e : Nat) (ha : a < 8) (hb : b < 8) (hc : c < 8) (hd : d < 8) :
    a ||| b * 8 ||| c * 64 ||| d * 512 ||| e * 4096
      = a + b * 8 + c * 64 + d * 512 + e * 4096 := by
  have h1 : a ||| b * 8 = a + b * 8 := by
    have := Nat.mul_add_lt_is_or (show a < 2 ^ 3 by omega) b
    rw [Nat.or_comm, Nat.mul_comm b 8, show (8:Nat) = 2 ^ 3 by norm_num, ← this]; omega
  have h2 : (a + b * 8) ||| c * 64 = a + b * 8 + c * 64 := by
    have := Nat.mul_add_lt_is_or (show a + b * 8 < 2 ^ 6 by omega) c
    rw [Nat.or_comm, Nat.mul_comm c 64, show (64:Nat) = 2 ^ 6 by norm_num, ← this]; omega
  have h3 : (a + b * 8 + c * 64) ||| d * 512 = a + b * 8 + c * 64 + d * 512 := by
    have := Nat.mul_add_lt_is_or (show a + b * 8 + c * 64 < 2 ^ 9 by omega) d
    rw [Nat.or_comm, Nat.mul_comm d 512, show (512:Nat) = 2 ^ 9 by norm_num, ← this]; omega
  have h4 : (a + b * 8 + c * 64 + d * 512) ||| e * 4096
      = a + b * 8 + c * 64 + d * 512 + e * 4096 := by
    have := Nat.mul_add_lt_is_or (show a + b * 8 + c * 64 + d * 512 < 2 ^ 12 by omega) e
    rw [Nat.or_comm, Nat.mul_comm e 4096, show (4096:Nat) = 2 ^ 12 by norm_num, ← this]; omega
  rw [h1, h2, h3, h4]

theorem permutationEntry_eq (i : Nat) :
    permutationEntry i
      = i / 4096 % 8 + (i / 512 % 8) * 8 + (i / 64 % 8) * 64 + (i / 8 % 8) * 512
        + (i % 8) * 4096 := by
  unfold permutationEntry
  have e4 : (i &&& (COLORFILTER <<< (4 * COLOR_SHIFT))) >>> (4 * COLOR_SHIFT)
      = i / 4096 % 8 := by
    have := color_eq_slot i 4
    simpa [color, slot] using this
  have e3 : (i &&& (COLORFILTER <<< (3 * COLOR_SHIFT))) >>> (2 * COLOR_SHIFT)
      = (i / 512 % 8) * 8 := by
    rw [and_mask, Nat.shiftRight_eq_div_pow]
    norm_num
    omega
  have e2 : i &&& (COLORFILTER <<< (2 * COLOR_SHIFT)) = (i / 64 % 8) * 64 := by
    rw [and_mask]; norm_num
  have e1 : (i &&& (COLORFILTER <<< (1 * 3))) <<< (2 * COLOR_SHIFT) = (i / 8 % 8) * 512 := by
    rw [and_mask, Nat.shiftLeft_eq]
    norm_num
    omega
  have e0 : (i &&& COLORFILTER) <<< (4 * COLOR_SHIFT) = (i % 8) * 4096 := by
    have := and_mask i 0
    simp at this
    rw [this, Nat.shiftLeft_eq]; norm_num
  rw [e4, e3, e2, e1, e0,
    or_digits _ _ _ _ _ (by omega) (by omega) (by omega) (by omega)]
  omega

theorem flag_test (e : Nat) : e &&& ELIMINITEBIT = bit e 15 * 32768 := by
  have h := Nat.and_two_pow e 15
  have hb : (e.testBit 15).toNat = bit e 15 := by
    rw [Nat.toNat_testBit]; simp [bit, Nat.shiftRight_eq_div_pow]
  rw [hb] at h
  simpa [ELIMINITEBIT] using h

theorem flag_clear_iff (e : Nat) : e &&& ELIMINITEBIT = 0 ↔ ¬ eliminated e := by
  rw [flag_test]; unfold eliminated bit; omega

theorem set_flag_combination (e : Nat) : combination (e ||| ELIMINITEBIT) = combination e := by
  unfold combination
  apply Nat.eq_of_testBit_eq
  intro i
  rw [show (32768 : Nat) = 2 ^ 15 by norm_num, Nat.testBit_mod_two_pow,
    Nat.testBit_mod_two_pow, Nat.testBit_or, show ELIMINITEBIT = 2 ^ 15 by norm_num,
    Nat.testBit_two_pow]
  by_cases h : i < 15
  · have : ¬ (15 = i) := by omega
    simp [h, this]
  · simp [h]

theorem set_flag_eliminated (e : Nat) : eliminated (e ||| ELIMINITEBIT) := by
  have h := flag_test (e ||| ELIMINITEBIT)
  have h2 : (e ||| ELIMINITEBIT) &&& ELIMINITEBIT = ELIMINITEBIT := by
    apply Nat.eq_of_testBit_eq
    intro i
    simp only [Nat.testBit_and, Nat.testBit_or]
    cases e.testBit i <;> cases ELIMINITEBIT.testBit i <;> rfl
  rw [h2] at h
  unfold eliminated
  have : bit (e ||| ELIMINITEBIT) 15 < 2 := by unfold bit; omega
  have h3 : ELIMINITEBIT = 32768 := rfl
  rw [h3] at h this ⊢
  omega

theorem set_flag_lt (e : Nat) (h : e < 65536) : e ||| ELIMINITEBIT < 65536 :=
  @Nat.or_lt_two_pow e ELIMINITEBIT 16 h (by norm_num)

/-! ## The counting loops -/

theorem incr_length (a : List Nat) (x : Nat) : (incr a x).length = a.length := by
  simp [incr]

theorem elem_of_le (a : List Nat) (c : Nat) (h : a.length ≤ c) : elem a c = 0 := by
  unfold elem
  rw [List.getD_eq_getElem?_getD, List.getElem?_eq_none h]
  rfl

theorem elem_incr_self (a : List Nat) (x : Nat) (h : x < a.length) :
    elem (incr a x) x = (elem a x + 1) % 256 := by
  unfold incr
  generalize (elem a x + 1) % 256 = v
  unfold elem
  rw [List.getD_eq_getElem?_getD, List.getElem?_set]
  simp [h]

theorem elem_incr_ne (a : List Nat) (x c : Nat) (h : x ≠ c) :
    elem (incr a x) c = elem a c := by
  unfold incr
  generalize (elem a x + 1) % 256 = v
  unfold elem
  rw [List.getD_eq_getElem?_getD, List.getD_eq_getElem?_getD, List.getElem?_set_ne h]

theorem elem_incr (a : List Nat) (x c : Nat) :
    elem (incr a x) c = if x = c ∧ c < a.length then (elem a c + 1) % 256 else elem a c := by
  by_cases hx : x = c
  · subst hx
    by_cases hl : x < a.length
    · rw [elem_incr_self a x hl, if_pos ⟨rfl, hl⟩]
    · rw [if_neg (fun h => hl h.2), elem_of_le a x (by omega),
        elem_of_le _ x (by rw [incr_length]; omega)]
  · rw [elem_incr_ne a x c hx, if_neg (fun h => hx h.1)]

theorem elem_incr_le (a : List Nat) (x c : Nat) : elem (incr a x) c ≤ elem a c + 1 := by
  rw [elem_incr]
  by_cases h : x = c ∧ c < a.length
  · rw [if_pos h]; omega
  · rw [if_neg h]; omega

theorem elem_replicate (c : Nat) : elem (List.replicate COLORS 0) c = 0 := by
  unfold elem
  rw [List.getD_eq_getElem?_getD, List.getElem?_replicate]
  by_cases h : c < COLORS
  · rw [if_pos h]; rfl
  · rw [if_neg h]; rfl

theorem foldl_incr_length (l : List Nat) :
    ∀ a : List Nat, (l.foldl incr a).length = a.length := by
  induction l with
  | nil => intro a; rfl
  | cons x l ih => intro a; rw [List.foldl_cons, ih, incr_length]

theorem foldl_incr_elem (l : List Nat) : ∀ (a : List Nat) (c : Nat), c < a.length →
    elem a c + l.length < 256 → elem (l.foldl incr a) c = elem a c + l.count c := by
  induction l with
  | nil => intro a c _ _; simp
  | cons x l ih =>
    intro a c hc hb
    rw [List.foldl_cons]
    simp only [List.length_cons] at hb
    have hle := elem_incr_le a x c
    rw [ih (incr a x) c (by rw [incr_length]; exact hc) (by omega), List.count_cons]
    by_cases hx : x = c
    · subst hx
      rw [elem_incr_self a x hc, Nat.mod_eq_of_lt (by omega)]
      simp; omega
    · rw [elem_incr_ne a x c hx]
      simp [hx]

theorem slots_eq_map_color (v : Nat) : (List.range SLOTS).map (color v) = slots v := by
  unfold slots
  congr 1
  funext j
  exact color_eq_slot v j

theorem slots_length (v : Nat) : (slots v).length = 5 := by
  simp [slots]

theorem countColors_eq (v : Nat) :
    countColors v = (slots v).foldl incr (List.replicate COLORS 0) := by
  unfold countColors
  rw [← slots_eq_map_color, List.foldl_map]

theorem countColors_length (v : Nat) : (countColors v).length = 8 := by
  rw [countColors_eq, foldl_incr_length]; simp

theorem countColors_elem (v c : Nat) (hc : c < 8) :
    elem (countColors v) c = occurrences v c := by
  rw [countColors_eq, foldl_incr_elem _ _ _ (by simpa using hc)
    (by rw [elem_replicate, slots_length]; norm_num), elem_replicate]
  simp [occurrences]

theorem occurrences_le (v c : Nat) : occurrences v c ≤ 5 := by
  unfold occurrences
  have := List.count_le_length c (slots v)
  rw [slots_length] at this
  exact this

theorem foldl_count (P : Nat → Prop) [DecidablePred P] (l : List Nat) :
    ∀ n : Nat, l.foldl (fun p j => if P j then p + 1 else p) n
      = n + l.countP (fun j => decide (P j)) := by
  induction l with
  | nil => intro n; simp
  | cons x l ih =>
    intro n
    rw [List.foldl_cons, ih, List.countP_cons]
    by_cases h : P x
    · simp [h]; omega
    · simp [h]

theorem permeqLoop_eq (g e : Nat) : permeqLoop g e = exactMatches g e := by
  unfold permeqLoop exactMatches
  rw [foldl_count (fun j => color g j = color e j)]
  simp [color_eq_slot]

theorem skip_fold (l : List Nat) : ∀ (a : List Nat) (s : Nat), a.length = 8 →
    (∀ c, elem a c + l.length < 256) →
    (s ≠ 0 ↔ ∃ c, c < 8 ∧ 3 ≤ elem a c) →
    (l.foldl (fun (st : List Nat × Nat) x =>
        (incr st.1 x, if elem (incr st.1 x) x > 2 then 1 else st.2)) (a, s)).1
        = l.foldl incr a
    ∧ ((l.foldl (fun (st : List Nat × Nat) x =>
        (incr st.1 x, if elem (incr st.1 x) x > 2 then 1 else st.2)) (a, s)).2 ≠ 0
        ↔ ∃ c, c < 8 ∧ 3 ≤ elem (l.foldl incr a) c) := by
  induction l with
  | nil => intro a s _ _ hs; simpa using hs
  | cons x l ih =>
    intro a s ha hb hs
    simp only [List.foldl_cons]
    simp only [List.length_cons] at hb
    apply ih
    · rw [incr_length]; exact ha
    · intro c
      have := hb c
      have := elem_incr_le a x c
      omega
    · have hget : ∀ c, elem (incr a x) c
          = if x = c ∧ c < 8 then elem a c + 1 else elem a c := by
        intro c
        rw [elem_incr, ha]
        have := hb c
        by_cases h : x = c ∧ c < 8
        · rw [if_pos h, if_pos h]; exact Nat.mod_eq_of_lt (by omega)
        · rw [if_neg h, if_neg h]
      have hmono : ∀ c, elem a c ≤ elem (incr a x) c := by
        intro c
        rw [hget]
        by_cases h : x = c ∧ c < 8
        · rw [if_pos h]; omega
        · rw [if_neg h]
      constructor
      · intro h
        by_cases hx : elem (incr a x) x > 2
        · have hx8 : x < 8 := by
            by_contra hge
            rw [elem_of_le _ x (by rw [incr_length]; omega)] at hx
            omega
          exact ⟨x, hx8, hx⟩
        · rw [if_neg hx] at h
          obtain ⟨c, hc, h3⟩ := hs.mp h
          exact ⟨c, hc, Nat.le_trans h3 (hmono c)⟩
      · rintro ⟨c, hc, h3⟩
        by_cases hx : elem (incr a x) x > 2
        · rw [if_pos hx]; decide
        · rw [if_neg hx]
          apply hs.mpr
          refine ⟨c, hc, ?_⟩
          by_cases hxc : x = c
          · subst hxc; omega
          · rw [elem_incr_ne a x c hxc] at h3; exact h3

theorem skip_fold_slots (e : Nat) :
    (countColorsSkip e).1 = countColors e
    ∧ ((countColorsSkip e).2 ≠ 0 ↔ ∃ c, c < 8 ∧ 3 ≤ elem (countColors e) c) := by
  have h := skip_fold ((List.range SLOTS).map (color e)) (List.replicate COLORS 0) 0
    (by simp) (by intro c; rw [elem_replicate]; simp [SLOTS])
    (by
      constructor
      · intro h; exact absurd rfl h
      · rintro ⟨c, _, h3⟩; rw [elem_replicate] at h3; omega)
  rw [List.foldl_map] at h
  rw [countColors_eq, ← slots_eq_map_color]
  exact h

theorem countColorsSkip_fst (e : Nat) : (countColorsSkip e).1 = countColors e :=
  (skip_fold_slots e).1

theorem countColorsSkip_snd (e : Nat) :
    (countColorsSkip e).2 ≠ 0 ↔ ∃ c, c < 8 ∧ 3 ≤ occurrences e c := by
  rw [(skip_fold_slots e).2]
  constructor
  · rintro ⟨c, hc, h3⟩; exact ⟨c, hc, by rwa [countColors_elem e c hc] at h3⟩
  · rintro ⟨c, hc, h3⟩; exact ⟨c, hc, by rwa [countColors_elem e c hc]⟩

theorem coldiffLoop_eq (g e : Nat) :
    coldiffLoop (countColors g) (countColors e)
      = (List.range COLORS).countP
          (fun c => decide (occurrences e c > 0 ∧ occurrences g c = 0)) := by
  unfold coldiffLoop
  rw [foldl_count (fun j => elem (countColors e) j > 0 ∧ elem (countColors g) j = 0),
    Nat.zero_add]
  apply List.countP_congr
  intro c hc
  have hc8 : c < 8 := by simpa using hc
  rw [countColors_elem e c hc8, countColors_elem g c hc8]

theorem diffrentcolorsLoop_eq (e : Nat) :
    diffrentcolorsLoop (countColors e)
      = (List.range COLORS).countP (fun c => decide (occurrences e c > 0)) := by
  unfold diffrentcolorsLoop
  rw [foldl_count (fun j => elem (countColors e) j > 0), Nat.zero_add]
  apply List.countP_congr
  intro c hc
  have hc8 : c < 8 := by simpa using hc
  rw [countColors_elem e c hc8]

/-! ## One candidate under `eliminate_wrongs` -/

theorem colorLoop_noBreak (colors tmpcolors : List Nat) (k : Nat) :
    ∀ (n j : Nat) (st : ColorScan),
    (∀ c, j ≤ c → c < j + n →
      ¬ ((elem colors c > k ∧ elem tmpcolors c ≥ elem colors c)
          ∨ (k = 0 ∧ (elem tmpcolors c ≠ 0 ∧ elem colors c ≠ 0)))) →
    colorLoop colors tmpcolors k n j st
      = ⟨st.colordiff + ((List.range' j n).map
            (fun c => Int.natAbs ((elem colors c : Int) - (elem tmpcolors c : Int)))).sum,
         st.coloreq + ((List.range' j n).map
            (fun c => if elem tmpcolors c ≤ elem colors c then elem tmpcolors c else 0)).sum,
         st.diffrentcols + (List.range' j n).countP
            (fun c => decide (elem tmpcolors c > 0 ∧ elem colors c = 0)),
         st.morecolorsthanrights, st.samecolorocc⟩ := by
  intro n
  induction n with
  | zero => intro j st _; simp [colorLoop]
  | succ n ih =>
    intro j st h
    have hj := h j (Nat.le_refl j) (by omega)
    rw [not_or] at hj
    unfold colorLoop
    simp only []
    rw [if_neg hj.1, if_neg hj.2, ih (j + 1) _ (fun c h1 h2 => h c (by omega) (by omega)),
      List.range'_succ]
    simp only [List.map_cons, List.sum_cons, List.countP_cons, ColorScan.mk.injEq]
    refine ⟨by omega, ?_, ?_, trivial, trivial⟩
    · by_cases h1 : elem tmpcolors j ≤ elem colors j
      · simp only [if_pos h1]; omega
      · simp only [if_neg h1]; omega
    · by_cases h1 : elem tmpcolors j > 0 ∧ elem colors j = 0
      · simp only [if_pos h1, decide_eq_true h1, if_true]; omega
      · simp only [if_neg h1, decide_eq_false h1]
        simp

theorem colorLoop_break (colors tmpcolors : List Nat) (k : Nat) :
    ∀ (n j : Nat) (st : ColorScan),
    (∃ c, j ≤ c ∧ c < j + n ∧
      ((elem colors c > k ∧ elem tmpcolors c ≥ elem colors c)
          ∨ (k = 0 ∧ (elem tmpcolors c ≠ 0 ∧ elem colors c ≠ 0)))) →
    (colorLoop colors tmpcolors k n j st).morecolorsthanrights > 0
      ∨ (colorLoop colors tmpcolors k n j st).samecolorocc > 0 := by
  intro n
  induction n with
  | zero => rintro j st ⟨c, h1, h2, _⟩; omega
  | succ n ih =>
    rintro j st ⟨c, h1, h2, hc⟩
    unfold colorLoop
    simp only []
    by_cases ha : elem colors j > k ∧ elem tmpcolors j ≥ elem colors j
    · rw [if_pos ha]; left; exact Nat.one_pos
    · rw [if_neg ha]
      by_cases hb : k = 0 ∧ (elem tmpcolors j ≠ 0 ∧ elem colors j ≠ 0)
      · rw [if_pos hb]; right; exact Nat.succ_pos _
      · rw [if_neg hb]
        apply ih
        refine ⟨c, ?_, by omega, hc⟩
        by_contra hlt
        have : c = j := by omega
        subst this
        rcases hc with hc | hc
        · exact ha hc
        · exact hb hc

theorem flagLoop_eq (cond : Bool) (e : Nat) :
    flagLoop cond e COLORS = if cond then e ||| 0x8000 else e := by
  cases cond <;> simp [flagLoop]

theorem eliminateCond_iff (sc : ColorScan) (p : Nat) (red white : Int) (k : Nat) :
    eliminateCond sc p red white k = true ↔
      (sc.samecolorocc > 0 ∨ sc.morecolorsthanrights > 0 ∨ (p : Int) ≠ red
        ∨ sc.coloreq > k ∨ (sc.diffrentcols : Int) > 5 - (k : Int)
        ∨ ((sc.colordiff / 2 : Nat) : Int) > 5 - (k : Int)
        ∨ (p : Int) > 5 - white ∨ (red = 0 ∧ white ≠ 0 ∧ p > 0)) := by
  unfold eliminateCond
  simp only [Bool.or_eq_true, Bool.and_eq_true, decide_eq_true_eq, or_assoc, and_assoc]

theorem range_map_occ (g e : Nat) (F : Nat → Nat → Nat) :
    (List.range' 0 COLORS).map (fun c => F (elem (countColors g) c) (elem (countColors e) c))
      = (List.range COLORS).map (fun c => F (occurrences g c) (occurrences e c)) := by
  rw [← List.range_eq_range']
  apply List.map_congr_left
  intro c hc
  have hc8 : c < 8 := by simpa using hc
  rw [countColors_elem g c hc8, countColors_elem e c hc8]

/-- The condition tested on a candidate that reaches the rule check holds exactly when
one of the eight conditions of the rule table does. -/
theorem cond_iff_ruleTable (g e : Nat) (red white : Int)
    (hr0 : 0 ≤ red) (hr7 : red ≤ 7) (hw0 : 0 ≤ white) (hw7 : white ≤ 7) :
    eliminateCond
        (colorLoop (countColors g) (countColors e) ((red + white) % 256).toNat COLORS 0
          ⟨0, 0, 0, 0, 0⟩)
        (permeqLoop g e) red white ((red + white) % 256).toNat = true
      ↔ ruleTable g e red white := by
  have hk : (((red + white) % 256).toNat : Int) = red + white := by omega
  generalize hkk : ((red + white) % 256).toNat = k at hk
  rw [eliminateCond_iff, permeqLoop_eq]
  by_cases hb : ∃ c, 0 ≤ c ∧ c < 0 + COLORS ∧
      ((elem (countColors g) c > k ∧ elem (countColors e) c ≥ elem (countColors g) c)
        ∨ (k = 0 ∧ (elem (countColors e) c ≠ 0 ∧ elem (countColors g) c ≠ 0)))
  · have h1 := colorLoop_break (countColors g) (countColors e) k COLORS 0 ⟨0, 0, 0, 0, 0⟩ hb
    constructor
    · intro _
      obtain ⟨c, _, hc, hcc⟩ := hb
      have hc8 : c < 8 := by change c < 0 + 8 at hc; omega
      rw [countColors_elem g c hc8, countColors_elem e c hc8] at hcc
      unfold ruleTable
      rcases hcc with ⟨h2, h3⟩ | ⟨h2, h3, h4⟩
      · right; left; exact ⟨c, hc8, by omega, h3⟩
      · right; right; left; exact ⟨by omega, c, hc8, by omega, by omega⟩
    · intro _
      rcases h1 with h1 | h1
      · right; left; exact h1
      · left; exact h1
  · have hnb : ∀ c, 0 ≤ c → c < 0 + COLORS →
        ¬ ((elem (countColors g) c > k ∧ elem (countColors e) c ≥ elem (countColors g) c)
          ∨ (k = 0 ∧ (elem (countColors e) c ≠ 0 ∧ elem (countColors g) c ≠ 0))) :=
      fun c h1 h2 h3 => hb ⟨c, h1, h2, h3⟩
    rw [colorLoop_noBreak (countColors g) (countColors e) k COLORS 0 ⟨0, 0, 0, 0, 0⟩ hnb]
    simp only [Nat.zero_add]
    have e1 := range_map_occ g e (fun a b => Int.natAbs ((a : Int) - (b : Int)))
    have e2 := range_map_occ g e (fun a b => if b ≤ a then b else 0)
    have e3 : (List.range' 0 COLORS).countP
        (fun c => decide (elem (countColors e) c > 0 ∧ elem (countColors g) c = 0))
        = diffCols g e := by
      unfold diffCols
      rw [← List.range_eq_range']
      apply List.countP_congr
      intro c hc
      have hc8 : c < 8 := by simpa using hc
      rw [countColors_elem g c hc8, countColors_elem e c hc8]
    simp only [] at e1 e2
    rw [e1, e2, e3]
    have n2 : ¬ ∃ c, c < COLORS ∧ (occurrences g c : Int) > red + white
        ∧ occurrences e c ≥ occurrences g c := by
      rintro ⟨c, hc, h2, h3⟩
      apply hnb c (Nat.zero_le c) (by omega)
      rw [countColors_elem g c hc, countColors_elem e c hc]
      left; exact ⟨by omega, h3⟩
    have n3 : ¬ (red + white = 0 ∧ ∃ c, c < COLORS ∧ occurrences e c > 0
        ∧ occurrences g c > 0) := by
      rintro ⟨h0, c, hc, h2, h3⟩
      apply hnb c (Nat.zero_le c) (by omega)
      rw [countColors_elem g c hc, countColors_elem e c hc]
      right; exact ⟨by omega, by omega, by omega⟩
    unfold ruleTable
    have f1 : ((List.range COLORS).map
        (fun c => if occurrences e c ≤ occurrences g c then occurrences e c else 0)).sum
        = colorEqSum g e := rfl
    have f2 : ((List.range COLORS).map
        (fun c => Int.natAbs ((occurrences g c : Int) - (occurrences e c : Int)))).sum / 2
        = colorDiff g e := rfl
    rw [f1, f2]
    simp only [n2, n3, false_or, gt_iff_lt, Nat.lt_irrefl]
    constructor
    · rintro (h | h | h | h | h | ⟨h, h', h''⟩)
      · left; exact h
      · right; left; omega
      · right; right; left; push_cast; omega
      · right; right; right; left; push_cast; omega
      · right; right; right; right; left; push_cast; omega
      · right; right; right; right; right; exact ⟨h, by omega, h''⟩
    · rintro (h | h | h | h | h | ⟨h, h', h''⟩)
      · left; exact h
      · right; left; omega
      · right; right; left; push_cast at h; omega
      · right; right; right; left; push_cast at h; omega
      · right; right; right; right; left; push_cast at h; omega
      · right; right; right; right; right; exact ⟨h, by omega, h''⟩

/-! ## The table loop of `eliminate_wrongs` -/

theorem eliminateLoop_length (step : Nat → Nat) :
    ∀ (n i : Nat) (t : List Nat), (eliminateLoop step n i t).length = t.length := by
  intro n
  induction n with
  | zero => intro i t; rfl
  | succ n ih =>
    intro i t
    unfold eliminateLoop
    cases h : t[i]? with
    | none => simp only []; rw [ih]
    | some e => simp only []; rw [ih, List.length_set]

theorem eliminateLoop_getElem? (step : Nat → Nat) :
    ∀ (n i : Nat) (t : List Nat) (k : Nat),
      (eliminateLoop step n i t)[k]?
        = if i ≤ k ∧ k < i + n then (t[k]?).map step else t[k]? := by
  intro n
  induction n with
  | zero =>
    intro i t k
    have : ¬ (i ≤ k ∧ k < i + 0) := by omega
    rw [if_neg this]; rfl
  | succ n ih =>
    intro i t k
    unfold eliminateLoop
    cases h : t[i]? with
    | none =>
      simp only []
      rw [ih]
      by_cases hk : k = i
      · subst hk
        have h1 : ¬ (k + 1 ≤ k ∧ k < k + 1 + n) := by omega
        have h2 : k ≤ k ∧ k < k + (n + 1) := by omega
        rw [if_neg h1, if_pos h2, h]; rfl
      · by_cases hc : i ≤ k ∧ k < i + (n + 1)
        · have h1 : i + 1 ≤ k ∧ k < i + 1 + n := by omega
          rw [if_pos h1, if_pos hc]
        · have h1 : ¬ (i + 1 ≤ k ∧ k < i + 1 + n) := by omega
          rw [if_neg h1, if_neg hc]
    | some e =>
      simp only []
      rw [ih]
      have hil : i < t.length := by
        rcases List.getElem?_eq_some.mp h with ⟨hl, _⟩
        exact hl
      by_cases hk : k = i
      · subst hk
        have h1 : ¬ (k + 1 ≤ k ∧ k < k + 1 + n) := by omega
        have h2 : k ≤ k ∧ k < k + (n + 1) := by omega
        rw [if_neg h1, if_pos h2, h, List.getElem?_set, if_pos rfl, if_pos hil]; rfl
      · have hne : i ≠ k := fun h' => hk h'.symm
        rw [List.getElem?_set_ne hne]
        by_cases hc : i ≤ k ∧ k < i + (n + 1)
        · have h1 : i + 1 ≤ k ∧ k < i + 1 + n := by omega
          rw [if_pos h1, if_pos hc]
        · have h1 : ¬ (i + 1 ≤ k ∧ k < i + 1 + n) := by omega
          rw [if_neg h1, if_neg hc]

theorem eliminate_wrongs_length (guess : Nat × Nat) (red white : Int) (t : List Nat) :
    (eliminate_wrongs guess red white t).length = t.length :=
  eliminateLoop_length _ _ _ _

theorem eliminate_wrongs_getElem? (guess : Nat × Nat) (red white : Int) (t : List Nat)
    (k : Nat) :
    (eliminate_wrongs guess red white t)[k]?
      = if k < COMBINATIONS then (t[k]?).map (eliminateEntry (message guess) red white)
        else t[k]? := by
  unfold eliminate_wrongs
  rw [eliminateLoop_getElem?]
  by_cases h : k < COMBINATIONS
  · rw [if_pos h, if_pos ⟨Nat.zero_le k, by omega⟩]
  · rw [if_neg h, if_neg (by omega)]

theorem mask_eq_combination (g : Nat) : g &&& 0x7FFF = combination g := by
  unfold combination
  rw [show (0x7FFF : Nat) = 2 ^ 15 - 1 by norm_num, Nat.and_pow_two_sub_one_eq_mod]

theorem eliminateEntry_of_eliminated (g : Nat) (red white : Int) (e : Nat)
    (h : eliminated e) : eliminateEntry g red white e = e := by
  unfold eliminateEntry
  simp only []
  have : e &&& ELIMINITEBIT ≠ 0 := fun h0 => (flag_clear_iff e).mp h0 h
  rw [if_pos this]

theorem eliminateEntry_guess (g : Nat) (red white : Int) (e : Nat)
    (h : ¬ eliminated e) (he : e = combination g) :
    eliminateEntry g red white e = e ||| ELIMINITEBIT := by
  unfold eliminateEntry
  simp only []
  have : ¬ (e &&& ELIMINITEBIT ≠ 0) := fun h0 => h0 ((flag_clear_iff e).mpr h)
  rw [if_neg this, if_pos (by rw [mask_eq_combination]; exact he)]

theorem eliminateEntry_other (g : Nat) (red white : Int) (e : Nat)
    (h : ¬ eliminated e) (he : e ≠ combination g) :
    eliminateEntry g red white e
      = if eliminateCond
            (colorLoop (countColors g) (countColors e) ((red + white) % 256).toNat COLORS 0
              ⟨0, 0, 0, 0, 0⟩)
            (permeqLoop g e) red white ((red + white) % 256).toNat
        then e ||| ELIMINITEBIT else e := by
  unfold eliminateEntry
  simp only []
  have : ¬ (e &&& ELIMINITEBIT ≠ 0) := fun h0 => h0 ((flag_clear_iff e).mpr h)
  rw [if_neg this, if_neg (by rw [mask_eq_combination]; exact he), flagLoop_eq]

theorem eliminateEntry_cases (g : Nat) (red white : Int) (e : Nat) :
    eliminateEntry g red white e = e ∨ eliminateEntry g red white e = e ||| ELIMINITEBIT := by
  by_cases h : eliminated e
  · left; exact eliminateEntry_of_eliminated g red white e h
  · by_cases he : e = combination g
    · right; exact eliminateEntry_guess g red white e h he
    · rw [eliminateEntry_other g red white e h he]
      split
      · right; rfl
      · left; rfl

theorem eliminateEntry_combination (g : Nat) (red white : Int) (e : Nat) :
    combination (eliminateEntry g red white e) = combination e := by
  rcases eliminateEntry_cases g red white e with h | h
  · rw [h]
  · rw [h, set_flag_combination]

theorem eliminateEntry_keeps_flag (g : Nat) (red white : Int) (e : Nat)
    (h : eliminated e) : eliminated (eliminateEntry g red white e) := by
  rw [eliminateEntry_of_eliminated g red white e h]; exact h

theorem eliminateEntry_lt (g : Nat) (red white : Int) (e : Nat) (h : e < 65536) :
    eliminateEntry g red white e < 65536 := by
  rcases eliminateEntry_cases g red white e with h' | h'
  · rw [h']; exact h
  · rw [h']; exact set_flag_lt e h

theorem not_eliminated_of_lt (e : Nat) (h : e < 32768) : ¬ eliminated e := by
  unfold eliminated bit
  omega

theorem lt_of_not_eliminated (e : Nat) (h : e < 65536) (h' : ¬ eliminated e) : e < 32768 := by
  unfold eliminated bit at h'
  omega

theorem countP_le_pointwise (p : Nat → Bool) :
    ∀ (l1 l2 : List Nat), l1.length = l2.length →
      (∀ (i a b : Nat), l1[i]? = some a → l2[i]? = some b → p b = true → p a = true) →
      l2.countP p ≤ l1.countP p := by
  intro l1
  induction l1 with
  | nil =>
    intro l2 hl _
    cases l2 with
    | nil => exact Nat.le_refl _
    | cons b l2 => simp at hl
  | cons a l1 ih =>
    intro l2 hl h
    cases l2 with
    | nil => simp at hl
    | cons b l2 =>
      have h0 := h 0 a b (List.getElem?_cons_zero ..) (List.getElem?_cons_zero ..)
      have ht := ih l2 (by simpa using hl)
        (fun i x y hx hy => h (i + 1) x y (by rw [List.getElem?_cons_succ]; exact hx)
          (by rw [List.getElem?_cons_succ]; exact hy))
      rw [List.countP_cons, List.countP_cons]
      by_cases hb : p b = true
      · rw [if_pos hb, if_pos (h0 hb)]; omega
      · rw [if_neg hb]; split <;> omega

theorem countP_lt_pointwise (p : Nat → Bool) :
    ∀ (l1 l2 : List Nat), l1.length = l2.length →
      (∀ (i a b : Nat), l1[i]? = some a → l2[i]? = some b → p b = true → p a = true) →
      (∃ i a b : Nat, l1[i]? = some a ∧ l2[i]? = some b ∧ p a = true ∧ p b = false) →
      l2.countP p < l1.countP p := by
  intro l1
  induction l1 with
  | nil =>
    rintro l2 _ _ ⟨i, a, b, h1, _⟩
    simp at h1
  | cons a l1 ih =>
    intro l2 hl h hex
    cases l2 with
    | nil => simp at hl
    | cons b l2 =>
      have h0 := h 0 a b (List.getElem?_cons_zero ..) (List.getElem?_cons_zero ..)
      have hl' : l1.length = l2.length := by simpa using hl
      have hpt : ∀ i x y, l1[i]? = some x → l2[i]? = some y → p y = true → p x = true :=
        fun i x y hx hy => h (i + 1) x y (by rw [List.getElem?_cons_succ]; exact hx)
          (by rw [List.getElem?_cons_succ]; exact hy)
      rw [List.countP_cons, List.countP_cons]
      obtain ⟨i, x, y, hx, hy, hpx, hpy⟩ := hex
      cases i with
      | zero =>
        simp only [List.getElem?_cons_zero, Option.some.injEq] at hx hy
        subst hx; subst hy
        have ht := countP_le_pointwise p l1 l2 hl' hpt
        rw [if_pos hpx, if_neg (by rw [hpy]; simp)]
        omega
      | succ i =>
        simp only [List.getElem?_cons_succ] at hx hy
        have ht := ih l2 hl' hpt ⟨i, x, y, hx, hy, hpx, hpy⟩
        by_cases hb : p b = true
        · rw [if_pos hb, if_pos (h0 hb)]; omega
        · rw [if_neg hb]; split <;> omega

theorem eliminate_wrongs_pointwise (guess : Nat × Nat) (red white : Int) (table : List Nat) :
    ∀ (i e : Nat), table[i]? = some e →
      ∃ e', (eliminate_wrongs guess red white table)[i]? = some e'
        ∧ combination e' = combination e ∧ (eliminated e → eliminated e') := by
  intro i e he
  rw [eliminate_wrongs_getElem?, he]
  by_cases h : i < COMBINATIONS
  · rw [if_pos h, Option.map_some']
    exact ⟨_, rfl, eliminateEntry_combination _ _ _ _, eliminateEntry_keeps_flag _ _ _ _⟩
  · rw [if_neg h]
    exact ⟨e, rfl, rfl, fun h' => h'⟩

theorem survivors_le (guess : Nat × Nat) (red white : Int) (table : List Nat) :
    survivors (eliminate_wrongs guess red white table) ≤ survivors table := by
  unfold survivors
  apply countP_le_pointwise _ _ _ (eliminate_wrongs_length guess red white table).symm
  intro i a b ha hb hpb
  obtain ⟨e', he', _, hflag⟩ := eliminate_wrongs_pointwise guess red white table i a ha
  rw [hb] at he'
  have hbe : b = e' := Option.some.inj he'
  subst hbe
  simp only [decide_eq_true_eq] at hpb ⊢
  exact fun h => hpb (hflag h)

/-! ## Colour counts and the honest score -/

theorem sum_map_le (l : List Nat) (f g : Nat → Nat) (h : ∀ c ∈ l, f c ≤ g c) :
    (l.map f).sum ≤ (l.map g).sum := by
  induction l with
  | nil => exact Nat.le_refl _
  | cons x l ih =>
    simp only [List.map_cons, List.sum_cons]
    have h1 := h x (List.mem_cons_self x l)
    have h2 := ih (fun c hc => h c (List.mem_cons_of_mem x hc))
    omega

theorem sum_map_add (l : List Nat) (f g : Nat → Nat) :
    (l.map (fun c => f c + g c)).sum = (l.map f).sum + (l.map g).sum := by
  induction l with
  | nil => rfl
  | cons x l ih =>
    simp only [List.map_cons, List.sum_cons, ih]
    omega

theorem le_sum_map (l : List Nat) (f : Nat → Nat) (c : Nat) (hc : c ∈ l) :
    f c ≤ (l.map f).sum := by
  induction l with
  | nil => cases hc
  | cons x l ih =>
    simp only [List.map_cons, List.sum_cons]
    rcases List.mem_cons.mp hc with h | h
    · subst h; omega
    · have := ih h; omega

theorem countP_eq_sum (l : List Nat) (p : Nat → Prop) [DecidablePred p] :
    l.countP (fun c => decide (p c)) = (l.map (fun c => if p c then 1 else 0)).sum := by
  induction l with
  | nil => rfl
  | cons x l ih =>
    simp only [List.map_cons, List.sum_cons, List.countP_cons, ih]
    by_cases h : p x
    · simp [h]; omega
    · simp [h]

theorem sum_indicator (x : Nat) :
    ∀ n, ((List.range n).map (fun c => if x = c then 1 else 0)).sum = if x < n then 1 else 0 := by
  intro n
  induction n with
  | zero => rfl
  | succ n ih =>
    rw [List.range_succ, List.map_append, List.sum_append, ih]
    simp only [List.map_cons, List.map_nil, List.sum_cons, List.sum_nil]
    by_cases h1 : x < n
    · have h2 : ¬ x = n := by omega
      have h3 : x < n + 1 := by omega
      rw [if_pos h1, if_neg h2, if_pos h3]; rfl
    · by_cases h2 : x = n
      · have h3 : x < n + 1 := by omega
        rw [if_neg h1, if_pos h2, if_pos h3]; rfl
      · have h3 : ¬ x < n + 1 := by omega
        rw [if_neg h1, if_neg h2, if_neg h3]; rfl

theorem count_cons_ind (c x : Nat) (l : List Nat) :
    (x :: l).count c = l.count c + (if x = c then 1 else 0) := by
  rw [List.count_cons]
  by_cases h : x = c
  · simp [h]
  · simp [h]

theorem count_snoc_ind (c x : Nat) (l : List Nat) :
    (l ++ [x]).count c = l.count c + (if x = c then 1 else 0) := by
  rw [List.count_append, List.count_singleton]
  by_cases h : x = c
  · simp [h]
  · simp [h]

theorem sum_count_range (n : Nat) (l : List Nat) (h : ∀ x ∈ l, x < n) :
    ((List.range n).map (fun c => l.count c)).sum = l.length := by
  induction l with
  | nil => simp
  | cons x l ih =>
    have e : (fun c => (x :: l).count c) = fun c => l.count c + (if x = c then 1 else 0) := by
      funext c; exact count_cons_ind c x l
    rw [e, sum_map_add, ih (fun y hy => h y (List.mem_cons_of_mem x hy)), sum_indicator,
      if_pos (h x (List.mem_cons_self x l))]
    rfl

theorem matches_le_overlap (a b : Nat → Nat) (N : Nat) (ha : ∀ j, a j < N) :
    ∀ n, (List.range n).countP (fun j => decide (a j = b j))
      ≤ ((List.range N).map (fun c =>
          min (((List.range n).map a).count c) (((List.range n).map b).count c))).sum := by
  intro n
  induction n with
  | zero => simp
  | succ n ih =>
    rw [List.range_succ, List.countP_append]
    simp only [List.map_append, List.map_cons, List.map_nil, count_snoc_ind,
      List.countP_cons, List.countP_nil]
    by_cases h : a n = b n
    · have e : (fun c => min (((List.range n).map a).count c + (if a n = c then 1 else 0))
            (((List.range n).map b).count c + (if b n = c then 1 else 0)))
          = fun c => min (((List.range n).map a).count c) (((List.range n).map b).count c)
              + (if a n = c then 1 else 0) := by
        funext c
        rw [← h]
        by_cases hc : a n = c
        · rw [if_pos hc]; omega
        · rw [if_neg hc]; omega
      rw [e, sum_map_add, sum_indicator, if_pos (ha n)]
      simp only [h, decide_True, if_true]
      omega
    · have hm := sum_map_le (List.range N)
        (fun c => min (((List.range n).map a).count c) (((List.range n).map b).count c))
        (fun c => min (((List.range n).map a).count c + (if a n = c then 1 else 0))
            (((List.range n).map b).count c + (if b n = c then 1 else 0)))
        (by
          intro c _
          simp only []
          by_cases h1 : a n = c <;> by_cases h2 : b n = c <;> simp only [h1, h2, if_true, if_false]
            <;> omega)
      simp only [h, decide_False]
      simp only [Bool.false_eq_true, if_false]
      omega

theorem slots_mem_lt (v x : Nat) (h : x ∈ slots v) : x < COLORS := by
  unfold slots at h
  rcases List.mem_map.mp h with ⟨j, _, hj⟩
  rw [← hj]
  exact slot_lt v j

theorem sum_occurrences (v : Nat) :
    ((List.range COLORS).map (fun c => occurrences v c)).sum = 5 := by
  unfold occurrences
  rw [sum_count_range COLORS (slots v) (slots_mem_lt v), slots_length]

theorem exactMatches_le_overlap (g s : Nat) : exactMatches g s ≤ overlap g s :=
  matches_le_overlap (slot g) (slot s) COLORS (slot_lt g) SLOTS

theorem overlap_le (g s : Nat) : overlap g s ≤ 5 := by
  have h := sum_map_le (List.range COLORS)
    (fun c => min (occurrences g c) (occurrences s c)) (fun c => occurrences g c)
    (fun c _ => Nat.min_le_left _ _)
  rw [sum_occurrences] at h
  exact h

theorem min_le_overlap (g s c : Nat) (hc : c < COLORS) :
    min (occurrences g c) (occurrences s c) ≤ overlap g s :=
  le_sum_map (List.range COLORS) (fun c => min (occurrences g c) (occurrences s c)) c
    (List.mem_range.mpr hc)

theorem colorEqSum_le_overlap (g s : Nat) : colorEqSum g s ≤ overlap g s := by
  apply sum_map_le
  intro c _
  beta_reduce
  split <;> omega

theorem diffCols_add_overlap (g s : Nat) : diffCols g s + overlap g s ≤ 5 := by
  unfold diffCols overlap
  rw [countP_eq_sum (List.range COLORS) (fun c => occurrences s c > 0 ∧ occurrences g c = 0),
    ← sum_map_add]
  have h := sum_map_le (List.range COLORS)
    (fun c => (if occurrences s c > 0 ∧ occurrences g c = 0 then 1 else 0)
      + min (occurrences g c) (occurrences s c))
    (fun c => occurrences s c)
    (by
      intro c _
      simp only []
      split <;> omega)
  rw [sum_occurrences] at h
  exact h

theorem absDiffSum_add_overlap (g s : Nat) : absDiffSum g s + 2 * overlap g s = 10 := by
  have e : (fun c => Int.natAbs ((occurrences g c : Int) - (occurrences s c : Int))
        + (min (occurrences g c) (occurrences s c) + min (occurrences g c) (occurrences s c)))
      = fun c => occurrences g c + occurrences s c := by
    funext c; omega
  have h := sum_map_add (List.range COLORS)
    (fun c => Int.natAbs ((occurrences g c : Int) - (occurrences s c : Int)))
    (fun c => min (occurrences g c) (occurrences s c) + min (occurrences g c) (occurrences s c))
  rw [e, sum_map_add, sum_map_add, sum_occurrences, sum_occurrences] at h
  unfold absDiffSum overlap
  omega

theorem colorDiff_eq (g s : Nat) : colorDiff g s = 5 - overlap g s := by
  unfold colorDiff
  have := absDiffSum_add_overlap g s
  omega

/-- With the honest score as feedback no condition of the rule table holds for the
secret. -/
theorem ruleTable_honest (g s : Nat) :
    ¬ ruleTable g s (exactMatches g s : Nat) (whitePegs g s : Nat) := by
  have h1 := exactMatches_le_overlap g s
  have h2 := overlap_le g s
  have h3 := colorEqSum_le_overlap g s
  have h4 := diffCols_add_overlap g s
  have h5 := colorDiff_eq g s
  have hk : ((exactMatches g s : Nat) : Int) + ((whitePegs g s : Nat) : Int)
      = (overlap g s : Nat) := by
    unfold whitePegs; omega
  unfold ruleTable
  rw [hk]
  rintro (h | ⟨c, hc, ha, hb⟩ | ⟨h0, c, hc, ha, hb⟩ | h | h | h | h | ⟨h, h', h''⟩)
  · exact h rfl
  · have := min_le_overlap g s c hc
    omega
  · have := min_le_overlap g s c hc
    omega
  · omega
  · simp only [SLOTS] at h; omega
  · simp only [SLOTS] at h; omega
  · simp only [SLOTS] at h; unfold whitePegs at h; omega
  · omega

/-! ## The initial table -/

theorem permutationEntry_lt (i : Nat) : permutationEntry i < 32768 := by
  rw [permutationEntry_eq]; omega

theorem digits (a b c d e : Nat) (ha : a < 8) (hb : b < 8) (hc : c < 8) (hd : d < 8)
    (he : e < 8) :
    (a + b * 8 + c * 64 + d * 512 + e * 4096) % 8 = a
    ∧ (a + b * 8 + c * 64 + d * 512 + e * 4096) / 8 % 8 = b
    ∧ (a + b * 8 + c * 64 + d * 512 + e * 4096) / 64 % 8 = c
    ∧ (a + b * 8 + c * 64 + d * 512 + e * 4096) / 512 % 8 = d
    ∧ (a + b * 8 + c * 64 + d * 512 + e * 4096) / 4096 % 8 = e := by
  refine ⟨?_, ?_, ?_, ?_, ?_⟩ <;> omega

theorem permutationEntry_digits (i : Nat) :
    permutationEntry i % 8 = i / 4096 % 8
    ∧ permutationEntry i / 8 % 8 = i / 512 % 8
    ∧ permutationEntry i / 64 % 8 = i / 64 % 8
    ∧ permutationEntry i / 512 % 8 = i / 8 % 8
    ∧ permutationEntry i / 4096 % 8 = i % 8 := by
  rw [permutationEntry_eq]
  exact digits _ _ _ _ _ (Nat.mod_lt _ (by norm_num)) (Nat.mod_lt _ (by norm_num))
    (Nat.mod_lt _ (by norm_num)) (Nat.mod_lt _ (by norm_num)) (Nat.mod_lt _ (by norm_num))

theorem permutationEntry_involutive (i : Nat) (h : i < 32768) :
    permutationEntry (permutationEntry i) = i := by
  obtain ⟨h0, h1, h2, h3, h4⟩ := permutationEntry_digits i
  rw [permutationEntry_eq (permutationEntry i), h0, h1, h2, h3, h4]
  omega

theorem permutationEntry_slot (i k : Nat) (hk : k < SLOTS) :
    slot (permutationEntry i) k = slot i (4 - k) := by
  obtain ⟨h0, h1, h2, h3, h4⟩ := permutationEntry_digits i
  unfold slot
  have hk5 : k < 5 := hk
  interval_cases k <;> norm_num <;> assumption

theorem init_length : init_color_permutation.length = COMBINATIONS := by
  simp [init_color_permutation]

theorem init_getElem? (i : Nat) (h : i < COMBINATIONS) :
    init_color_permutation[i]? = some (permutationEntry i) := by
  unfold init_color_permutation
  rw [List.getElem?_map, List.getElem?_range h]
  rfl

theorem init_getElem?_none (i : Nat) (h : COMBINATIONS ≤ i) :
    init_color_permutation[i]? = none :=
  List.getElem?_eq_none (by rw [init_length]; exact h)

theorem init_mem_lt (e : Nat) (h : e ∈ init_color_permutation) : e < 32768 := by
  unfold init_color_permutation at h
  rcases List.mem_map.mp h with ⟨i, _, hi⟩
  rw [← hi]
  exact permutationEntry_lt i

theorem init_holds_all (c : Nat) (h : c < 32768) :
    init_color_permutation[permutationEntry c]? = some c := by
  rw [init_getElem? _ (permutationEntry_lt c), permutationEntry_involutive c h]

/-! ## The table loop of `set_new_guess` -/

theorem guessLoop_eq_scan (colors : List Nat) (k : Int) (t : List Nat) :
    ∀ (n i : Nat) (st : Scan),
      guessLoop colors k t n i st = guessScan colors k ((t.drop i).take n) st := by
  intro n
  induction n with
  | zero => intro i st; simp [guessLoop, guessScan]
  | succ n ih =>
    intro i st
    unfold guessLoop
    cases h : t[i]? with
    | none =>
      simp only []
      have hl : t.length ≤ i := List.getElem?_eq_none_iff.mp h
      rw [ih, List.drop_of_length_le hl, List.drop_of_length_le (by omega)]
      simp [guessScan]
    | some e =>
      simp only []
      obtain ⟨hl, he⟩ := List.getElem?_eq_some.mp h
      rw [List.drop_eq_getElem_cons hl, List.take_succ_cons, he]
      simp only [ih]
      conv_rhs => unfold guessScan

theorem slots_zero : slots 0 = [0, 0, 0, 0, 0] := by decide

theorem diffCols_le_distinct (g e : Nat) : diffCols g e ≤ distinctColours e := by
  unfold diffCols distinctColours
  apply List.countP_mono_left
  intro c _ h
  simp only [decide_eq_true_eq] at h ⊢
  exact h.1

theorem slots_combination (e : Nat) : slots (combination e) = slots e := by
  unfold slots
  apply List.map_congr_left
  intro j hj
  have hj5 : j < 5 := by simpa using hj
  unfold slot combination
  interval_cases j <;> norm_num <;> omega

theorem distinctColours_zero (e : Nat) (h : combination e = 0) : distinctColours e ≤ 1 := by
  have hs : slots e = [0, 0, 0, 0, 0] := by rw [← slots_combination, h, slots_zero]
  unfold distinctColours occurrences
  rw [hs]
  decide

theorem diversify_ne_zero (g e : Nat) (h : diffCols g e ≥ 2) : (e : Int) ≠ 0 := by
  intro h0
  have he : e = 0 := by omega
  have h1 := diffCols_le_distinct g e
  have h2 := distinctColours_zero e (by rw [he]; rfl)
  omega

theorem explore_test (e : Nat) :
    ((countColorsSkip e).2 ≠ 0 ∧ diffrentcolorsLoop (countColorsSkip e).1 = 3)
      ↔ explorePattern e := by
  rw [countColorsSkip_snd, countColorsSkip_fst, diffrentcolorsLoop_eq]
  unfold explorePattern distinctColours
  constructor
  · rintro ⟨h1, h2⟩; exact ⟨h2, h1⟩
  · rintro ⟨h1, h2⟩; exact ⟨h2, h1⟩

theorem diversify_test (g e : Nat) :
    coldiffLoop (countColors g) (countColorsSkip e).1 = diffCols g e := by
  rw [countColorsSkip_fst, coldiffLoop_eq]
  rfl

/-- The table loop when `red + white ≥ 1`: the explore rule cannot fire. -/
theorem guessScan_diversify (g : Nat) (k : Int) (hk : k ≥ 1) :
    ∀ (L : List Nat) (st : Scan),
      (guessScan (countColors g) k L st).tmpguess
          = (if st.chosen = 0 then
              (firstSurviving (fun _ => True) L).getD st.tmpguess else st.tmpguess)
      ∧ (guessScan (countColors g) k L st).preferedguess
          = (if st.preferedguess = 0 then
              ((firstSurviving (fun e => diffCols g e ≥ 2) L).map (fun e => (e : Int))).getD 0
             else st.preferedguess) := by
  intro L
  induction L with
  | nil =>
    intro st
    unfold guessScan firstSurviving
    simp only [List.find?_nil, Option.getD_none, Option.map_none', ite_self, true_and]
    split
    · rename_i h; exact h
    · rfl
  | cons e L ih =>
    intro st
    unfold guessScan
    unfold firstSurviving at ih ⊢
    by_cases hel : e &&& ELIMINITEBIT = 0
    · have hs : ¬ eliminated e := (flag_clear_iff e).mp hel
      have hk0 : ¬ ((countColorsSkip e).2 ≠ 0 ∧ k = 0
          ∧ diffrentcolorsLoop (countColorsSkip e).1 = 3) := by
        rintro ⟨_, h0, _⟩; omega
      have hf1 : (e :: L).find? (fun e => decide (¬ eliminated e ∧ True)) = some e := by
        rw [List.find?_cons]; simp [hs]
      simp only [if_pos hel, if_neg hk0, diversify_test]
      rw [hf1]
      by_cases hc : st.chosen = 0
      · simp only [if_pos hc]
        by_cases hd : diffCols g e ≥ 2
        · by_cases hp : st.preferedguess = 0
          · have hd' : st.preferedguess = 0 ∧ k ≥ 1 ∧ diffCols g e ≥ 2 := ⟨hp, hk, hd⟩
            have hf2 : (e :: L).find? (fun e => decide (¬ eliminated e ∧ diffCols g e ≥ 2))
                = some e := by
              rw [List.find?_cons]; simp [hs, hd]
            rw [if_pos hd', hf2]
            obtain ⟨i1, i2⟩ := ih ⟨1, e, (e : Int)⟩
            rw [i1, i2]
            simp only [if_neg (diversify_ne_zero g e hd), if_pos hp]
            simp
          · have hd' : ¬ (st.preferedguess = 0 ∧ k ≥ 1 ∧ diffCols g e ≥ 2) :=
              fun h => hp h.1
            rw [if_neg hd']
            obtain ⟨i1, i2⟩ := ih ⟨1, e, st.preferedguess⟩
            rw [i1, i2]
            simp only [if_neg hp]
            simp
        · have hd' : ¬ (st.preferedguess = 0 ∧ k ≥ 1 ∧ diffCols g e ≥ 2) :=
            fun h => hd h.2.2
          have hf2 : (e :: L).find? (fun e => decide (¬ eliminated e ∧ diffCols g e ≥ 2))
              = L.find? (fun e => decide (¬ eliminated e ∧ diffCols g e ≥ 2)) := by
            rw [List.find?_cons]; simp [hd]
          rw [if_neg hd', hf2]
          obtain ⟨i1, i2⟩ := ih ⟨1, e, st.preferedguess⟩
          rw [i1, i2]
          simp
      · simp only [if_neg hc]
        by_cases hd : st.preferedguess = 0 ∧ k ≥ 1 ∧ diffCols g e ≥ 2
        · have hf2 : (e :: L).find? (fun e => decide (¬ eliminated e ∧ diffCols g e ≥ 2))
              = some e := by
            rw [List.find?_cons]; simp [hs, hd.2.2]
          rw [if_pos hd, hf2]
          obtain ⟨i1, i2⟩ := ih ⟨st.chosen, st.tmpguess, (e : Int)⟩
          rw [i1, i2]
          simp only [if_neg (diversify_ne_zero g e hd.2.2), if_neg hc, if_pos hd.1]
          simp
        · rw [if_neg hd]
          obtain ⟨i1, i2⟩ := ih st
          rw [i1, i2]
          simp only [if_neg hc, true_and]
          by_cases hp : st.preferedguess = 0
          · have hnd : ¬ diffCols g e ≥ 2 := fun h => hd ⟨hp, hk, h⟩
            have hf2 : (e :: L).find? (fun e => decide (¬ eliminated e ∧ diffCols g e ≥ 2))
                = L.find? (fun e => decide (¬ eliminated e ∧ diffCols g e ≥ 2)) := by
              rw [List.find?_cons]; simp [hnd]
            rw [hf2]
          · simp only [if_neg hp]
    · have hs : eliminated e := by
        by_contra h; exact hel ((flag_clear_iff e).mpr h)
      have hf1 : (e :: L).find? (fun e => decide (¬ eliminated e ∧ True))
          = L.find? (fun e => decide (¬ eliminated e ∧ True)) := by
        rw [List.find?_cons]; simp [hs]
      have hf2 : (e :: L).find? (fun e => decide (¬ eliminated e ∧ diffCols g e ≥ 2))
          = L.find? (fun e => decide (¬ eliminated e ∧ diffCols g e ≥ 2)) := by
        rw [List.find?_cons]; simp [hs]
      rw [if_neg hel, hf1, hf2]
      exact ih st

/-- The table loop when `red + white = 0`: the diversify rule cannot record anything. -/
theorem guessScan_explore (g : Nat) :
    ∀ (L : List Nat) (st : Scan),
      (∀ e, firstSurviving explorePattern L = some e →
          (guessScan (countColors g) 0 L st).tmpguess = e
          ∧ (guessScan (countColors g) 0 L st).preferedguess = -1)
      ∧ (firstSurviving explorePattern L = none →
          (guessScan (countColors g) 0 L st).tmpguess
              = (if st.chosen = 0 then
                  (firstSurviving (fun _ => True) L).getD st.tmpguess else st.tmpguess)
          ∧ (guessScan (countColors g) 0 L st).preferedguess = st.preferedguess) := by
  intro L
  induction L with
  | nil =>
    intro st
    unfold guessScan firstSurviving
    simp
  | cons e L ih =>
    intro st
    unfold guessScan
    unfold firstSurviving at ih ⊢
    by_cases hel : e &&& ELIMINITEBIT = 0
    · have hs : ¬ eliminated e := (flag_clear_iff e).mp hel
      have hf1 : (e :: L).find? (fun e => decide (¬ eliminated e ∧ True)) = some e := by
        rw [List.find?_cons]; simp [hs]
      have hdiv : ∀ (p : Int) (x : Nat), ¬ (p = 0 ∧ (0 : Int) ≥ 1 ∧ x ≥ 2) := by
        intro p x h; omega
      simp only [if_pos hel]
      by_cases hx : explorePattern e
      · have hcond : (countColorsSkip e).2 ≠ 0 ∧ True
            ∧ diffrentcolorsLoop (countColorsSkip e).1 = 3 :=
          ⟨((explore_test e).mpr hx).1, trivial, ((explore_test e).mpr hx).2⟩
        have hf2 : (e :: L).find? (fun e => decide (¬ eliminated e ∧ explorePattern e))
            = some e := by
          rw [List.find?_cons]; simp [hs, hx]
        rw [if_pos hcond, hf2]
        constructor
        · intro e' he'
          have : e = e' := Option.some.inj he'
          subst this
          exact ⟨rfl, rfl⟩
        · intro h; cases h
      · have hcond : ¬ ((countColorsSkip e).2 ≠ 0 ∧ True
            ∧ diffrentcolorsLoop (countColorsSkip e).1 = 3) :=
          fun h => hx ((explore_test e).mp ⟨h.1, h.2.2⟩)
        have hf2 : (e :: L).find? (fun e => decide (¬ eliminated e ∧ explorePattern e))
            = L.find? (fun e => decide (¬ eliminated e ∧ explorePattern e)) := by
          rw [List.find?_cons]; simp [hx]
        rw [if_neg hcond, if_neg (hdiv _ _), hf2, hf1]
        by_cases hc : st.chosen = 0
        · simp only [if_pos hc]
          obtain ⟨i1, i2⟩ := ih ⟨1, e, st.preferedguess⟩
          refine ⟨i1, fun hn => ?_⟩
          obtain ⟨j1, j2⟩ := i2 hn
          rw [j1, j2]
          simp
        · simp only [if_neg hc]
          obtain ⟨i1, i2⟩ := ih st
          refine ⟨i1, fun hn => ?_⟩
          obtain ⟨j1, j2⟩ := i2 hn
          rw [j1, j2]
          simp [hc]
    · have hs : eliminated e := by
        by_contra h; exact hel ((flag_clear_iff e).mpr h)
      have hf1 : (e :: L).find? (fun e => decide (¬ eliminated e ∧ True))
          = L.find? (fun e => decide (¬ eliminated e ∧ True)) := by
        rw [List.find?_cons]; simp [hs]
      have hf2 : (e :: L).find? (fun e => decide (¬ eliminated e ∧ explorePattern e))
          = L.find? (fun e => decide (¬ eliminated e ∧ explorePattern e)) := by
        rw [List.find?_cons]; simp [hs]
      rw [if_neg hel, hf1, hf2]
      exact ih st

/-- The value `set_new_guess` selects, for a table of at most `COMBINATIONS` entries and
a feedback with `red + white ≥ 0`, is the one the selection rule names; without a
surviving entry it is the previous guess message. -/
theorem selectGuess_eq (guess : Nat × Nat) (red white : Int) (t : List Nat)
    (hk : 0 ≤ red + white) (hlen : t.length ≤ COMBINATIONS)
    (hwf : ∀ e, e ∈ t → e < 65536) :
    selectGuess guess red white t
      = (selectionRule (message guess) red white t).getD (message guess) := by
  unfold selectGuess
  simp only []
  rw [guessLoop_eq_scan, List.drop_zero, List.take_of_length_le hlen]
  unfold selectionRule
  by_cases h0 : red + white = 0
  · rw [h0]
    have hge : ¬ ((0 : Int) ≥ 1 ∧ (firstSurviving (fun e => diffCols (message guess) e ≥ 2)
        t).isSome) := by
      intro h; omega
    obtain ⟨h1, h2⟩ := guessScan_explore (message guess) t ⟨0, message guess, 0⟩
    cases hf : firstSurviving explorePattern t with
    | none =>
      obtain ⟨j1, j2⟩ := h2 hf
      rw [j1, j2]
      simp [hge]
    | some e =>
      obtain ⟨j1, j2⟩ := h1 e hf
      rw [j1, j2]
      simp
  · have hk1 : red + white ≥ 1 := by omega
    have hne : ¬ (red + white = 0 ∧ (firstSurviving explorePattern t).isSome) :=
      fun h => h0 h.1
    obtain ⟨j1, j2⟩ := guessScan_diversify (message guess) (red + white) hk1 t
      ⟨0, message guess, 0⟩
    rw [j1, j2, if_neg hne]
    cases hf : firstSurviving (fun e => diffCols (message guess) e ≥ 2) t with
    | none => simp [hk1]
    | some e =>
      have hmem : e ∈ t := List.mem_of_find?_eq_some hf
      have hlt := hwf e hmem
      have hpos : (0 : Int) < (e : Int) := by
        have := List.find?_some hf
        simp only [decide_eq_true_eq] at this
        have := diversify_ne_zero (message guess) e this.2
        omega
      have hmod : ((e : Int) % 65536).toNat = e := by omega
      simp [hk1, hpos, hmod]

/-! ## The parity bit and the two guess bytes -/

theorem xor_mod_two (a b : Nat) : (a ^^^ b) % 2 = (a % 2 + b % 2) % 2 := by
  have ha := Nat.toNat_testBit a 0
  have hb := Nat.toNat_testBit b 0
  have hab := Nat.toNat_testBit (a ^^^ b) 0
  rw [Nat.testBit_xor] at hab
  simp only [pow_zero, Nat.div_one] at ha hb hab
  rw [← ha, ← hb, ← hab]
  cases a.testBit 0 <;> cases b.testBit 0 <;> rfl

theorem parity_fold (c : Nat) (l : List Nat) :
    ∀ p0 : Nat, (l.foldl (fun p i => p ^^^ (c >>> i)) p0) % 2
      = (p0 + (l.map (bit c)).sum) % 2 := by
  induction l with
  | nil => intro p0; rfl
  | cons i l ih =>
    intro p0
    rw [List.foldl_cons, ih, List.map_cons, List.sum_cons]
    have h := xor_mod_two p0 (c >>> i)
    have hb : (c >>> i) % 2 = bit c i := by
      rw [Nat.shiftRight_eq_div_pow]; rfl
    rw [hb] at h
    omega

theorem parityLoop_and_one (c : Nat) : parityLoop c &&& 0x1 = xorBits c := by
  rw [Nat.and_one_is_mod]
  unfold parityLoop xorBits
  rw [parity_fold, Nat.zero_add]

theorem xorBits_le (c : Nat) : xorBits c ≤ 1 := by
  unfold xorBits; omega

theorem message_bytes (w : Nat) (h : w < 65536) :
    message (w &&& 0x00FF, (w >>> 8) % 256) = w := by
  unfold message
  simp only []
  rw [show (0x00FF : Nat) = 2 ^ 8 - 1 by norm_num, Nat.and_pow_two_sub_one_eq_mod,
    Nat.shiftRight_eq_div_pow, Nat.shiftLeft_eq, Nat.mul_comm,
    ← Nat.mul_add_lt_is_or (Nat.mod_lt _ (by norm_num))]
  norm_num
  omega

/-- The message `set_new_guess` writes for a 15-bit `tmpguess`. -/
theorem message_encodeGuess (c : Nat) (hc : c < 32768) :
    message (encodeGuess c) = c + 32768 * xorBits c := by
  have hp := xorBits_le c
  have hw : (c ||| ((parityLoop c &&& 0x1) <<< PARITYPOSITION)) = c + 32768 * xorBits c := by
    rw [parityLoop_and_one, Nat.shiftLeft_eq, Nat.or_comm, Nat.mul_comm,
      ← Nat.mul_add_lt_is_or (show c < 2 ^ PARITYPOSITION by norm_num; exact hc)]
    norm_num
    omega
  unfold encodeGuess
  simp only []
  rw [hw, Nat.mod_eq_of_lt (by omega), message_bytes _ (by omega)]

theorem bit_low (c p i : Nat) (hi : i < 15) :
    bit (c + 32768 * p) i = bit c i := by
  unfold bit
  interval_cases i <;> norm_num <;> omega

theorem onesCount_encoded (c : Nat) (hc : c < 32768) :
    onesCount (c + 32768 * xorBits c) % 2 = 0 := by
  have hp := xorBits_le c
  have h15 : bit (c + 32768 * xorBits c) 15 = xorBits c := by
    unfold bit; norm_num; omega
  have hx : xorBits c = ((List.range 15).map (bit c)).sum % 2 := rfl
  unfold onesCount
  rw [List.range_succ, List.map_append, List.sum_append]
  have hm : (List.range 15).map (bit (c + 32768 * xorBits c)) = (List.range 15).map (bit c) := by
    apply List.map_congr_left
    intro i hi
    exact bit_low c _ i (List.mem_range.mp hi)
  rw [hm]
  simp only [List.map_cons, List.map_nil, List.sum_cons, List.sum_nil, h15]
  omega

/-! ## What the selection rule returns -/

theorem firstSurviving_some (p : Nat → Prop) [DecidablePred p] (t : List Nat) (e : Nat)
    (h : firstSurviving p t = some e) : e ∈ t ∧ ¬ eliminated e ∧ p e := by
  unfold firstSurviving at h
  have h1 := List.mem_of_find?_eq_some h
  have h2 := List.find?_some h
  simp only [decide_eq_true_eq] at h2
  exact ⟨h1, h2.1, h2.2⟩

theorem firstSurviving_isSome (t : List Nat) (h : ∃ e, e ∈ t ∧ ¬ eliminated e) :
    (firstSurviving (fun _ => True) t).isSome = true := by
  unfold firstSurviving
  rw [List.find?_isSome]
  obtain ⟨e, he, hs⟩ := h
  exact ⟨e, he, by simp [hs]⟩

theorem selectionRule_some (g : Nat) (red white : Int) (t : List Nat)
    (h : ∃ e, e ∈ t ∧ ¬ eliminated e) :
    ∃ e, selectionRule g red white t = some e ∧ e ∈ t ∧ ¬ eliminated e := by
  unfold selectionRule
  split
  · rename_i h1
    obtain ⟨e, he⟩ := Option.isSome_iff_exists.mp h1.2
    have := firstSurviving_some _ t e he
    exact ⟨e, he, this.1, this.2.1⟩
  · split
    · rename_i h1
      obtain ⟨e, he⟩ := Option.isSome_iff_exists.mp h1.2
      have := firstSurviving_some _ t e he
      exact ⟨e, he, this.1, this.2.1⟩
    · obtain ⟨e, he⟩ := Option.isSome_iff_exists.mp (firstSurviving_isSome t h)
      have := firstSurviving_some _ t e he
      exact ⟨e, he, this.1, this.2.1⟩

/-- With a surviving entry in a well-formed table, `set_new_guess` selects a surviving
entry, the one the selection rule names, and emits it in bits 0-14 of the message. -/
theorem set_new_guess_selects (guess : Nat × Nat) (red white : Int) (t : List Nat)
    (hk : 0 ≤ red + white) (hlen : t.length ≤ COMBINATIONS)
    (hwf : ∀ e, e ∈ t → e < 65536) (h : ∃ e, e ∈ t ∧ ¬ eliminated e) :
    ∃ e, selectionRule (message guess) red white t = some e ∧ e ∈ t ∧ e < 32768
      ∧ selectGuess guess red white t = e
      ∧ combination (message (set_new_guess guess red white t).1) = e := by
  obtain ⟨e, he, hmem, hs⟩ := selectionRule_some (message guess) red white t h
  have hlt : e < 32768 := lt_of_not_eliminated e (hwf e hmem) hs
  have hsel : selectGuess guess red white t = e := by
    rw [selectGuess_eq guess red white t hk hlen hwf, he]; rfl
  refine ⟨e, he, hmem, hlt, hsel, ?_⟩
  unfold set_new_guess
  simp only []
  rw [hsel, message_encodeGuess e hlt]
  have := xorBits_le e
  unfold combination
  omega

/-! ## The closed loop against an honest arbiter -/

theorem decodeReply_eq (b : Nat) : decodeReply b = (b / 64, b % 8, b / 8 % 8) := by
  unfold decodeReply
  have h1 : b >>> STATUS_BYTES = b / 64 := by
    rw [Nat.shiftRight_eq_div_pow]; norm_num
  have h2 : b &&& COLORFILTER = b % 8 := by
    rw [show COLORFILTER = 2 ^ 3 - 1 by norm_num, Nat.and_pow_two_sub_one_eq_mod]
  have h3 : (b &&& (COLORFILTER <<< COLOR_SHIFT)) >>> COLOR_SHIFT = b / 8 % 8 := by
    have := color_eq_slot b 1
    simpa [color, slot] using this
  rw [h1, h2, h3]

theorem honest_bounds (g s : Nat) :
    (0 : Int) ≤ (exactMatches g s : Nat) ∧ ((exactMatches g s : Nat) : Int) ≤ 7
    ∧ (0 : Int) ≤ (whitePegs g s : Nat) ∧ ((whitePegs g s : Nat) : Int) ≤ 7 := by
  have h1 := exactMatches_le_overlap g s
  have h2 := overlap_le g s
  unfold whitePegs
  omega

theorem eliminateEntry_honest (g s : Nat) (hs : s < 32768) (hne : s ≠ combination g) :
    eliminateEntry g (exactMatches g s : Nat) (whitePegs g s : Nat) s = s := by
  obtain ⟨h1, h2, h3, h4⟩ := honest_bounds g s
  rw [eliminateEntry_other g _ _ s (not_eliminated_of_lt s hs) hne]
  have hc := cond_iff_ruleTable g s (exactMatches g s : Nat) (whitePegs g s : Nat) h1 h2 h3 h4
  have hn : ¬ (eliminateCond
      (colorLoop (countColors g) (countColors s)
        ((((exactMatches g s : Nat) : Int) + ((whitePegs g s : Nat) : Int)) % 256).toNat COLORS 0
        ⟨0, 0, 0, 0, 0⟩)
      (permeqLoop g s) (exactMatches g s : Nat) (whitePegs g s : Nat)
      ((((exactMatches g s : Nat) : Int) + ((whitePegs g s : Nat) : Int)) % 256).toNat = true) :=
    fun h => ruleTable_honest g s (hc.mp h)
  rw [if_neg hn]

theorem exactMatches_eq_five (g s : Nat) :
    exactMatches g s = 5 ↔ combination g = combination s := by
  unfold exactMatches
  have hl : (List.range SLOTS).length = 5 := by simp
  rw [← hl, List.countP_eq_length]
  simp only [decide_eq_true_eq, List.mem_range]
  unfold slot combination
  constructor
  · intro h
    have h0 := h 0 (by norm_num)
    have h1 := h 1 (by norm_num)
    have h2 := h 2 (by norm_num)
    have h3 := h 3 (by norm_num)
    have h4 := h 4 (by norm_num)
    norm_num at h0 h1 h2 h3 h4
    omega
  · intro h j hj
    have hj5 : j < 5 := hj
    interval_cases j <;> norm_num <;> omega

theorem decode_honest (secret : Nat) (guess : Nat × Nat) :
    decodeReply (honestReply secret guess % 256)
      = (0, exactMatches (message guess) secret, whitePegs (message guess) secret) := by
  rw [decodeReply_eq]
  unfold honestReply
  obtain ⟨_, h2, _, h4⟩ := honest_bounds (message guess) secret
  have h5 := exactMatches_le_overlap (message guess) secret
  have h6 := overlap_le (message guess) secret
  have h7 : whitePegs (message guess) secret ≤ 5 := by unfold whitePegs; omega
  have h8 : exactMatches (message guess) secret ≤ 5 := by omega
  generalize whitePegs (message guess) secret = w at *
  generalize exactMatches (message guess) secret = r at *
  refine Prod.ext ?_ (Prod.ext ?_ ?_) <;> simp only [] <;> omega

theorem survivors_pos (t : List Nat) (e : Nat) (he : e ∈ t) (hs : ¬ eliminated e) :
    0 < survivors t := by
  unfold survivors
  rw [List.countP_pos_iff]
  exact ⟨e, he, by simp [hs]⟩

/-- A pass of `eliminate_wrongs` whose guess is a surviving entry lowers the number of
surviving entries. -/
theorem survivors_decrease (guess : Nat × Nat) (red white : Int) (t : List Nat) (i : Nat)
    (hlen : t.length ≤ COMBINATIONS) (hi : t[i]? = some (combination (message guess))) :
    survivors (eliminate_wrongs guess red white t) < survivors t := by
  unfold survivors
  have hmono := eliminate_wrongs_pointwise guess red white t
  apply countP_lt_pointwise _ _ _ (eliminate_wrongs_length guess red white t).symm
  · intro j a b ha hb hpb
    obtain ⟨e', he', _, hflag⟩ := hmono j a ha
    rw [hb] at he'
    have hbe : b = e' := Option.some.inj he'
    subst hbe
    simp only [decide_eq_true_eq] at hpb ⊢
    exact fun h => hpb (hflag h)
  · have hil : i < COMBINATIONS := by
      rcases List.getElem?_eq_some.mp hi with ⟨hl, _⟩
      omega
    have hne : ¬ eliminated (combination (message guess)) :=
      not_eliminated_of_lt _ (Nat.mod_lt _ (by norm_num))
    refine ⟨i, combination (message guess),
      eliminateEntry (message guess) red white (combination (message guess)), hi, ?_, ?_, ?_⟩
    · rw [eliminate_wrongs_getElem?, hi, if_pos hil, Option.map_some']
    · simp [hne]
    · rw [eliminateEntry_guess _ red white _ hne rfl]
      simp [set_flag_eliminated]

/-- After a pass no surviving entry holds the combination of the guess. -/
theorem guess_not_surviving (guess : Nat × Nat) (red white : Int) (t : List Nat) (e' : Nat)
    (hlen : t.length ≤ COMBINATIONS)
    (hmem : e' ∈ eliminate_wrongs guess red white t) (hs : ¬ eliminated e') :
    e' ≠ combination (message guess) ∧ e' ∈ t := by
  obtain ⟨i, hi⟩ := List.getElem?_of_mem hmem
  have hil : i < t.length := by
    rcases List.getElem?_eq_some.mp hi with ⟨hl, _⟩
    rw [eliminate_wrongs_length] at hl
    exact hl
  have he : t[i]? = some t[i] := List.getElem?_eq_getElem hil
  have hmap := eliminate_wrongs_getElem? guess red white t i
  rw [he, if_pos (by omega), Option.map_some', hi] at hmap
  have hee : e' = eliminateEntry (message guess) red white t[i] := Option.some.inj hmap
  have hmem' : t[i] ∈ t := List.getElem?_mem he
  have hns : ¬ eliminated t[i] := by
    intro h
    apply hs
    rw [hee]
    exact eliminateEntry_keeps_flag _ _ _ _ h
  have hsame : e' = t[i] := by
    rcases eliminateEntry_cases (message guess) red white t[i] with h | h
    · rw [hee, h]
    · exfalso
      apply hs
      rw [hee, h]
      exact set_flag_eliminated _
  constructor
  · intro heq
    apply hs
    rw [hee, eliminateEntry_guess _ red white _ hns (by rw [← hsame]; exact heq)]
    exact set_flag_eliminated _
  · rw [hsame]; exact hmem'

theorem eliminate_wrongs_wf (guess : Nat × Nat) (red white : Int) (t : List Nat)
    (hwf : ∀ e, e ∈ t → e < 65536) :
    ∀ e, e ∈ eliminate_wrongs guess red white t → e < 65536 := by
  intro e' hmem
  obtain ⟨i, hi⟩ := List.getElem?_of_mem hmem
  have hil : i < t.length := by
    rcases List.getElem?_eq_some.mp hi with ⟨hl, _⟩
    rw [eliminate_wrongs_length] at hl
    exact hl
  have he : t[i]? = some t[i] := List.getElem?_eq_getElem hil
  have hmap := eliminate_wrongs_getElem? guess red white t i
  rw [he, hi] at hmap
  have hlt := hwf t[i] (List.getElem?_mem he)
  by_cases hc : i < COMBINATIONS
  · rw [if_pos hc, Option.map_some'] at hmap
    rw [Option.some.inj hmap]
    exact eliminateEntry_lt _ _ _ _ hlt
  · rw [if_neg hc] at hmap
    rw [Option.some.inj hmap]
    exact hlt

theorem eliminate_wrongs_honest (guess : Nat × Nat) (s : Nat) (table : List Nat) (i : Nat)
    (hs : s < 32768) (hne : s ≠ combination (message guess))
    (hi : table[i]? = some s) :
    (eliminate_wrongs guess (exactMatches (message guess) s : Nat)
        (whitePegs (message guess) s : Nat) table)[i]? = some s := by
  rw [eliminate_wrongs_getElem?, hi]
  by_cases h : i < COMBINATIONS
  · rw [if_pos h, Option.map_some', eliminateEntry_honest _ s hs hne]
  · rw [if_neg h]

theorem nodup_snoc (l : List Nat) (a : Nat) (h : a ∉ l) (hl : l.Nodup) : (l ++ [a]).Nodup := by
  rw [List.nodup_append]
  refine ⟨hl, List.nodup_singleton a, ?_⟩
  intro x hx hx'
  rw [List.mem_singleton] at hx'
  subst hx'
  exact h hx

/-- The round loop against an honest arbiter, from any state in which the secret and the
current guess are surviving entries and no earlier guess is: it stops with red = 5 after
at most as many further rounds as there are surviving entries. -/
theorem roundLoop_honest (secret : Nat) (hsec : secret < 32768) :
    ∀ (n rounds : Nat) (guess : Nat × Nat) (table : List Nat) (sent : List (Nat × Nat)),
      table.length ≤ COMBINATIONS →
      (∀ e, e ∈ table → e < 65536) →
      secret ∈ table →
      combination (message guess) ∈ table →
      (∀ g', g' ∈ sent →
        ∀ e, e ∈ table → ¬ eliminated e → e ≠ combination (message g')) →
      (sent.map (fun g => combination (message g))).Nodup →
      survivors table ≤ n →
      ∃ run, roundLoop (fun _ g => honestReply secret g) n rounds guess table sent = some run
        ∧ run.error = 0 ∧ run.red = 5 ∧ rounds < run.rounds ∧ run.rounds ≤ rounds + n
        ∧ run.sent.length = sent.length + (run.rounds - rounds)
        ∧ (run.sent.map (fun g => combination (message g))).Nodup
        ∧ ∃ g, run.sent.getLast? = some g ∧ combination (message g) = secret := by
  intro n
  induction n with
  | zero =>
    intro rounds guess table sent _ _ hsecmem _ _ _ hcount
    have := survivors_pos table secret hsecmem (not_eliminated_of_lt secret hsec)
    omega
  | succ n ih =>
    intro rounds guess table sent hlen hwf hsecmem hgmem hsent hnodup hcount
    have hglt : combination (message guess) < 32768 := Nat.mod_lt _ (by norm_num)
    have hgsurv : ¬ eliminated (combination (message guess)) := not_eliminated_of_lt _ hglt
    have hfresh : combination (message guess) ∉ sent.map (fun g => combination (message g)) := by
      intro hm
      obtain ⟨g', hg', heq⟩ := List.mem_map.mp hm
      exact hsent g' hg' _ hgmem hgsurv heq.symm
    have hnodup' : ((sent ++ [guess]).map (fun g => combination (message g))).Nodup := by
      rw [List.map_append]
      exact nodup_snoc _ _ hfresh hnodup
    unfold roundLoop
    simp only [decode_honest]
    by_cases hr : exactMatches (message guess) secret = 5
    · have hcond : ¬ (True ∧ exactMatches (message guess) secret ≠ 5) := fun h => h.2 hr
      rw [if_neg hcond]
      refine ⟨_, rfl, rfl, hr, Nat.lt_succ_self _, by simp only []; omega, ?_, hnodup', guess,
        List.getLast?_concat _, ?_⟩
      · simp only [List.length_append, List.length_singleton]; omega
      · rw [(exactMatches_eq_five _ _).mp hr]
        exact Nat.mod_eq_of_lt hsec
    · have hcond : True ∧ exactMatches (message guess) secret ≠ 5 := ⟨trivial, hr⟩
      rw [if_pos hcond]
      have hne : secret ≠ combination (message guess) := by
        intro heq
        apply hr
        rw [exactMatches_eq_five, ← heq]
        exact (Nat.mod_eq_of_lt hsec).symm
      obtain ⟨isec, hisec⟩ := List.getElem?_of_mem hsecmem
      obtain ⟨ig, hig⟩ := List.getElem?_of_mem hgmem
      have hsec1 := List.getElem?_mem
        (eliminate_wrongs_honest guess secret table isec hsec hne hisec)
      have hlen1 : (eliminate_wrongs guess (exactMatches (message guess) secret : Nat)
          (whitePegs (message guess) secret : Nat) table).length ≤ COMBINATIONS := by
        rw [eliminate_wrongs_length]; exact hlen
      have hwf1 := eliminate_wrongs_wf guess (exactMatches (message guess) secret : Nat)
          (whitePegs (message guess) secret : Nat) table hwf
      obtain ⟨e, _, hemem, _, _, hcomb⟩ := set_new_guess_selects guess
        (exactMatches (message guess) secret : Nat) (whitePegs (message guess) secret : Nat)
        _ (by omega) hlen1 hwf1 ⟨secret, hsec1, not_eliminated_of_lt secret hsec⟩
      have hdec := survivors_decrease guess (exactMatches (message guess) secret : Nat)
          (whitePegs (message guess) secret : Nat) table ig hlen hig
      obtain ⟨run, h1, h2, h3, h4, h5, h6, h7, h8⟩ := ih (rounds + 1)
        (set_new_guess guess (exactMatches (message guess) secret : Nat)
          (whitePegs (message guess) secret : Nat)
          (eliminate_wrongs guess (exactMatches (message guess) secret : Nat)
            (whitePegs (message guess) secret : Nat) table)).1
        (eliminate_wrongs guess (exactMatches (message guess) secret : Nat)
            (whitePegs (message guess) secret : Nat) table)
        (sent ++ [guess]) hlen1 hwf1 hsec1 (by rw [hcomb]; exact hemem)
        (by
          intro g' hg' e' he' hs'
          obtain ⟨hn1, hn2⟩ := guess_not_surviving guess _ _ table e' hlen he' hs'
          rcases List.mem_append.mp hg' with hg | hg
          · exact hsent g' hg e' hn2 hs'
          · rw [List.mem_singleton] at hg
            rw [hg]; exact hn1)
        hnodup' (by omega)
      refine ⟨run, h1, h2, h3, by omega, by omega, ?_, h7, h8⟩
      rw [h6]
      simp only [List.length_append, List.length_singleton]
      omega

/-! ## The round loop as a function of the reply bytes -/

theorem roundLoop_bytes (bytes : Nat → Nat) :
    ∀ (k fuel rounds : Nat) (guess : Nat × Nat) (table : List Nat) (sent : List (Nat × Nat)),
      k < fuel →
      (∀ j, j < k → (decodeReply (bytes (rounds + j) % 256)).1 = 0
        ∧ (decodeReply (bytes (rounds + j) % 256)).2.1 ≠ 5) →
      ((decodeReply (bytes (rounds + k) % 256)).1 ≠ 0
        ∨ (decodeReply (bytes (rounds + k) % 256)).2.1 = 5) →
      ∃ run, roundLoop (fun r _ => bytes r) fuel rounds guess table sent = some run
        ∧ run.rounds = rounds + k + 1
        ∧ run.error = (decodeReply (bytes (rounds + k) % 256)).1
        ∧ run.red = (decodeReply (bytes (rounds + k) % 256)).2.1
        ∧ run.white = (decodeReply (bytes (rounds + k) % 256)).2.2
        ∧ run.sent.length = sent.length + k + 1 := by
  intro k
  induction k with
  | zero =>
    intro fuel rounds guess table sent hf _ hstop
    obtain ⟨f, rfl⟩ : ∃ f, fuel = f + 1 := ⟨fuel - 1, by omega⟩
    unfold roundLoop
    simp only [Nat.add_zero] at hstop ⊢
    have hc : ¬ ((decodeReply (bytes rounds % 256)).1 = 0
        ∧ (decodeReply (bytes rounds % 256)).2.1 ≠ 5) := by
      rintro ⟨h1, h2⟩
      rcases hstop with h | h
      · exact h h1
      · exact h2 h
    rw [if_neg hc]
    exact ⟨_, rfl, rfl, rfl, rfl, rfl, by simp⟩
  | succ k ih =>
    intro fuel rounds guess table sent hf hcont hstop
    obtain ⟨f, rfl⟩ : ∃ f, fuel = f + 1 := ⟨fuel - 1, by omega⟩
    unfold roundLoop
    have h0 := hcont 0 (Nat.succ_pos k)
    simp only [Nat.add_zero] at h0
    simp only []
    rw [if_pos h0]
    have e1 : ∀ j, rounds + 1 + j = rounds + (j + 1) := fun j => by omega
    obtain ⟨run, h1, h2, h3, h4, h5, h6⟩ := ih f (rounds + 1) _ _ (sent ++ [guess]) (by omega)
      (fun j hj => by rw [e1]; exact hcont (j + 1) (by omega))
      (by rw [e1]; exact hstop)
    rw [e1] at h3 h4 h5
    refine ⟨run, h1, by omega, h3, h4, h5, ?_⟩
    rw [h6]
    simp only [List.length_append, List.length_singleton]
    omega

theorem exitStatus_cases (error : Nat) (h : error ≤ 3) :
    (error = 1 → exitStatus error = 2) ∧ (error = 2 → exitStatus error = 3)
      ∧ (error = 3 → exitStatus error = 4) ∧ (exitStatus error = 0 ↔ error = 0) := by
  unfold exitStatus
  interval_cases error <;> simp

theorem decodeReply_error_le (b : Nat) : (decodeReply (b % 256)).1 ≤ 3 := by
  rw [decodeReply_eq]
  simp only []
  omega

/-! ## Selection for an arbitrary feedback, and without survivors -/

/-- The table loop when `red + white < 0`: neither rule can fire. -/
theorem guessScan_negative (g : Nat) (k : Int) (hk : k < 0) :
    ∀ (L : List Nat) (st : Scan),
      (guessScan (countColors g) k L st).tmpguess
          = (if st.chosen = 0 then
              (firstSurviving (fun _ => True) L).getD st.tmpguess else st.tmpguess)
      ∧ (guessScan (countColors g) k L st).preferedguess = st.preferedguess := by
  intro L
  induction L with
  | nil =>
    intro st
    unfold guessScan firstSurviving
    simp
  | cons e L ih =>
    intro st
    unfold guessScan
    unfold firstSurviving at ih ⊢
    by_cases hel : e &&& ELIMINITEBIT = 0
    · have hs : ¬ eliminated e := (flag_clear_iff e).mp hel
      have hf1 : (e :: L).find? (fun e => decide (¬ eliminated e ∧ True)) = some e := by
        rw [List.find?_cons]; simp [hs]
      have hx : ∀ (a b : Prop), ¬ (a ∧ k = 0 ∧ b) := by
        intro a b h; omega
      have hd : ∀ (a b : Prop), ¬ (a ∧ k ≥ 1 ∧ b) := by
        intro a b h; omega
      simp only [if_pos hel]
      rw [if_neg (hx _ _), if_neg (hd _ _), hf1]
      by_cases hc : st.chosen = 0
      · simp only [if_pos hc]
        obtain ⟨i1, i2⟩ := ih ⟨1, e, st.preferedguess⟩
        rw [i1, i2]
        simp
      · simp only [if_neg hc]
        obtain ⟨i1, i2⟩ := ih st
        rw [i1, i2]
        simp [hc]
    · have hs : eliminated e := by
        by_contra h; exact hel ((flag_clear_iff e).mpr h)
      have hf1 : (e :: L).find? (fun e => decide (¬ eliminated e ∧ True))
          = L.find? (fun e => decide (¬ eliminated e ∧ True)) := by
        rw [List.find?_cons]; simp [hs]
      rw [if_neg hel, hf1]
      exact ih st

/-- Whatever the feedback, with a surviving entry in a well-formed table the value
`set_new_guess` selects is a surviving entry. -/
theorem selectGuess_mem (guess : Nat × Nat) (red white : Int) (t : List Nat)
    (hlen : t.length ≤ COMBINATIONS) (hwf : ∀ e, e ∈ t → e < 65536)
    (h : ∃ e, e ∈ t ∧ ¬ eliminated e) :
    selectGuess guess red white t ∈ t ∧ selectGuess guess red white t < 32768 := by
  by_cases hk : 0 ≤ red + white
  · obtain ⟨e, _, hmem, hlt, hsel, _⟩ := set_new_guess_selects guess red white t hk hlen hwf h
    rw [hsel]
    exact ⟨hmem, hlt⟩
  · obtain ⟨e, he⟩ := Option.isSome_iff_exists.mp (firstSurviving_isSome t h)
    obtain ⟨hmem, hs, _⟩ := firstSurviving_some _ t e he
    have hsel : selectGuess guess red white t = e := by
      unfold selectGuess
      simp only []
      rw [guessLoop_eq_scan, List.drop_zero, List.take_of_length_le hlen]
      obtain ⟨j1, j2⟩ := guessScan_negative (message guess) (red + white) (by omega) t
        ⟨0, message guess, 0⟩
      rw [j1, j2, he]
      simp
    rw [hsel]
    exact ⟨hmem, lt_of_not_eliminated e (hwf e hmem) hs⟩

theorem guessScan_all_eliminated (colors : List Nat) (k : Int) :
    ∀ (L : List Nat) (st : Scan), (∀ e, e ∈ L → eliminated e) →
      guessScan colors k L st = st := by
  intro L
  induction L with
  | nil => intro st _; unfold guessScan; rfl
  | cons e L ih =>
    intro st h
    unfold guessScan
    have hel : ¬ (e &&& ELIMINITEBIT = 0) :=
      fun h0 => (flag_clear_iff e).mp h0 (h e (List.mem_cons_self e L))
    rw [if_neg hel]
    exact ih st (fun x hx => h x (List.mem_cons_of_mem e hx))

/-- Without a surviving entry `set_new_guess` keeps the previous guess message as
`tmpguess`. -/
theorem selectGuess_no_survivor (guess : Nat × Nat) (red white : Int) (t : List Nat)
    (hlen : t.length ≤ COMBINATIONS) (h : ∀ e, e ∈ t → eliminated e) :
    selectGuess guess red white t = message guess := by
  unfold selectGuess
  simp only []
  rw [guessLoop_eq_scan, List.drop_zero, List.take_of_length_le hlen,
    guessScan_all_eliminated _ _ t _ h]
  simp

/-! ## The explore rule and the documented pattern -/

theorem find?_of_index (p : Nat → Bool) :
    ∀ (t : List Nat) (i b : Nat), t[i]? = some b → p b = true →
      (∀ (j a : Nat), j < i → t[j]? = some a → p a = false) → t.find? p = some b := by
  intro t
  induction t with
  | nil => intro i b hb _ _; simp at hb
  | cons x t ih =>
    intro i b hb hp hpre
    cases i with
    | zero =>
      rw [List.getElem?_cons_zero] at hb
      have : x = b := Option.some.inj hb
      subst this
      rw [List.find?_cons, hp]
    | succ i =>
      rw [List.getElem?_cons_succ] at hb
      have hx : p x = false := hpre 0 x (Nat.succ_pos i) (List.getElem?_cons_zero ..)
      rw [List.find?_cons, hx]
      exact ih i b hb hp (fun j a hj ha =>
        hpre (j + 1) a (by omega) (by rw [List.getElem?_cons_succ]; exact ha))

/-- A combination that meets the test of the explore rule never has the 2-2-1 pattern:
a colour occurring 3 times and two colours occurring twice would need 7 slots. -/
theorem explorePattern_not_221 (e : Nat) (h : explorePattern e) : ¬ pattern221 e := by
  rintro ⟨_, h2, _⟩
  obtain ⟨_, x, hx, hx3⟩ := h
  rw [countP_eq_sum (List.range COLORS) (fun c => occurrences e c = 2)] at h2
  have hle := sum_map_le (List.range COLORS)
    (fun c => (if x = c then 1 else 0) + ((if x = c then 1 else 0)
      + ((if x = c then 1 else 0) + ((if occurrences e c = 2 then 1 else 0)
      + (if occurrences e c = 2 then 1 else 0)))))
    (fun c => occurrences e c)
    (by
      intro c _
      beta_reduce
      by_cases hc : x = c
      · subst hc
        have h2' : ¬ occurrences e x = 2 := by omega
        rw [if_pos rfl, if_neg h2']
        omega
      · rw [if_neg hc]
        split <;> omega)
  rw [sum_map_add, sum_map_add, sum_map_add, sum_map_add, sum_indicator, if_pos hx, h2,
    sum_occurrences] at hle
  omega

theorem first_round_table (j : Nat) (hj : j < COMBINATIONS) :
    (eliminate_wrongs initialGuess 0 0 init_color_permutation)[j]?
      = some (eliminateEntry (message initialGuess) 0 0 (permutationEntry j)) := by
  rw [eliminate_wrongs_getElem?, if_pos hj, init_getElem? j hj, Option.map_some']

theorem first_round_explore :
    firstSurviving explorePattern (eliminate_wrongs initialGuess 0 0 init_color_permutation)
      = some 8704 := by
  unfold firstSurviving
  apply find?_of_index _ _ 10 8704
  · rw [first_round_table 10 (by decide)]
    decide
  · decide
  · intro j a hj ha
    rw [first_round_table j (by change j < 32768; omega)] at ha
    have ha' := Option.some.inj ha
    subst ha'
    interval_cases j <;> decide

/-! ## Variants of the filter -/

theorem eliminateEntryWith_eq (tmpdata : Nat) (red white : Int) (e : Nat) :
    eliminateEntryWith colorLoop eliminateCond tmpdata red white e
      = eliminateEntry tmpdata red white e := rfl

theorem eliminate_wrongsWith_eq (guess : Nat × Nat) (red white : Int) (table : List Nat) :
    eliminate_wrongsWith colorLoop eliminateCond guess red white table
      = eliminate_wrongs guess red white table := rfl

theorem eliminate_wrongsWith_getElem?
    (loop : List Nat → List Nat → Nat → Nat → Nat → ColorScan → ColorScan)
    (cond : ColorScan → Nat → Int → Int → Nat → Bool)
    (guess : Nat × Nat) (red white : Int) (t : List Nat) (k : Nat) :
    (eliminate_wrongsWith loop cond guess red white t)[k]?
      = if k < COMBINATIONS then
          (t[k]?).map (eliminateEntryWith loop cond (message guess) red white)
        else t[k]? := by
  unfold eliminate_wrongsWith
  rw [eliminateLoop_getElem?]
  by_cases h : k < COMBINATIONS
  · rw [if_pos h, if_pos ⟨Nat.zero_le k, by omega⟩]
  · rw [if_neg h, if_neg (by omega)]

theorem eliminateCondNoRule8_iff (sc : ColorScan) (p : Nat) (red white : Int) (k : Nat) :
    eliminateCondNoRule8 sc p red white k = true ↔
      (sc.samecolorocc > 0 ∨ sc.morecolorsthanrights > 0 ∨ (p : Int) ≠ red
        ∨ sc.coloreq > k ∨ (sc.diffrentcols : Int) > 5 - (k : Int)
        ∨ ((sc.colordiff / 2 : Nat) : Int) > 5 - (k : Int)
        ∨ (p : Int) > 5 - white) := by
  unfold eliminateCondNoRule8
  simp only [Bool.or_eq_true, decide_eq_true_eq, or_assoc]

/-- The last condition of the disjunction implies its third one, `permeq != red`. -/
theorem eliminateCondNoRule8_eq (sc : ColorScan) (p : Nat) (red white : Int) (k : Nat) :
    eliminateCondNoRule8 sc p red white k = eliminateCond sc p red white k := by
  rw [Bool.eq_iff_iff, eliminateCondNoRule8_iff, eliminateCond_iff]
  constructor
  · rintro (h | h | h | h | h | h | h)
    · left; exact h
    · right; left; exact h
    · right; right; left; exact h
    · right; right; right; left; exact h
    · right; right; right; right; left; exact h
    · right; right; right; right; right; left; exact h
    · right; right; right; right; right; right; left; exact h
  · rintro (h | h | h | h | h | h | h | ⟨h, _, h'⟩)
    · left; exact h
    · right; left; exact h
    · right; right; left; exact h
    · right; right; right; left; exact h
    · right; right; right; right; left; exact h
    · right; right; right; right; right; left; exact h
    · right; right; right; right; right; right; exact h
    · right; right; left; omega

/-- The two colour loops leave the same counters, except that the min-based `coloreq`
is at least the original one. -/
theorem colorLoop_le_min (colors tmpcolors : List Nat) (k : Nat) :
    ∀ (n j : Nat) (st st' : ColorScan),
      st.colordiff = st'.colordiff → st.coloreq ≤ st'.coloreq →
      st.diffrentcols = st'.diffrentcols →
      st.morecolorsthanrights = st'.morecolorsthanrights →
      st.samecolorocc = st'.samecolorocc →
      (colorLoop colors tmpcolors k n j st).colordiff
          = (colorLoopMin colors tmpcolors k n j st').colordiff
        ∧ (colorLoop colors tmpcolors k n j st).coloreq
          ≤ (colorLoopMin colors tmpcolors k n j st').coloreq
        ∧ (colorLoop colors tmpcolors k n j st).diffrentcols
          = (colorLoopMin colors tmpcolors k n j st').diffrentcols
        ∧ (colorLoop colors tmpcolors k n j st).morecolorsthanrights
          = (colorLoopMin colors tmpcolors k n j st').morecolorsthanrights
        ∧ (colorLoop colors tmpcolors k n j st).samecolorocc
          = (colorLoopMin colors tmpcolors k n j st').samecolorocc := by
  intro n
  induction n with
  | zero =>
    intro j st st' h1 h2 h3 h4 h5
    unfold colorLoop colorLoopMin
    exact ⟨h1, h2, h3, h4, h5⟩
  | succ n ih =>
    intro j st st' h1 h2 h3 h4 h5
    unfold colorLoop colorLoopMin
    simp only []
    have hq : (if elem tmpcolors j ≤ elem colors j then st.coloreq + elem tmpcolors j
        else st.coloreq) ≤ st'.coloreq + min (elem tmpcolors j) (elem colors j) := by
      split <;> omega
    by_cases ha : elem colors j > k ∧ elem tmpcolors j ≥ elem colors j
    · rw [if_pos ha, if_pos ha]
      exact ⟨by simp only [h1], hq, by simp only [h3], rfl, h5⟩
    · rw [if_neg ha, if_neg ha]
      by_cases hb : k = 0 ∧ (elem tmpcolors j ≠ 0 ∧ elem colors j ≠ 0)
      · rw [if_pos hb, if_pos hb]
        exact ⟨by simp only [h1], hq, by simp only [h3], h4, by simp only [h5]⟩
      · rw [if_neg hb, if_neg hb]
        exact ih (j + 1) _ _ (by simp only [h1]) hq (by simp only [h3]) h4 h5

theorem colorLoopMin_noBreak (colors tmpcolors : List Nat) (k : Nat) :
    ∀ (n j : Nat) (st : ColorScan),
    (∀ c, j ≤ c → c < j + n →
      ¬ ((elem colors c > k ∧ elem tmpcolors c ≥ elem colors c)
          ∨ (k = 0 ∧ (elem tmpcolors c ≠ 0 ∧ elem colors c ≠ 0)))) →
    (colorLoopMin colors tmpcolors k n j st).coloreq
      = st.coloreq + ((List.range' j n).map
          (fun c => min (elem tmpcolors c) (elem colors c))).sum := by
  intro n
  induction n with
  | zero => intro j st _; simp [colorLoopMin]
  | succ n ih =>
    intro j st h
    have hj := h j (Nat.le_refl j) (by omega)
    rw [not_or] at hj
    unfold colorLoopMin
    simp only []
    rw [if_neg hj.1, if_neg hj.2, ih (j + 1) _ (fun c h1 h2 => h c (by omega) (by omega)),
      List.range'_succ]
    simp only [List.map_cons, List.sum_cons]
    omega

/-- The final disjunction is monotone in `coloreq`. -/
theorem eliminateCond_mono (sc sc' : ColorScan) (p : Nat) (red white : Int) (k : Nat)
    (h1 : sc.colordiff = sc'.colordiff) (h2 : sc.coloreq ≤ sc'.coloreq)
    (h3 : sc.diffrentcols = sc'.diffrentcols)
    (h4 : sc.morecolorsthanrights = sc'.morecolorsthanrights)
    (h5 : sc.samecolorocc = sc'.samecolorocc)
    (h : eliminateCond sc p red white k = true) : eliminateCond sc' p red white k = true := by
  rw [eliminateCond_iff] at h ⊢
  rw [← h1, ← h3, ← h4, ← h5]
  rcases h with h | h | h | h | h | h | h | h
  · left; exact h
  · right; left; exact h
  · right; right; left; exact h
  · right; right; right; left; omega
  · right; right; right; right; left; exact h
  · right; right; right; right; right; left; exact h
  · right; right; right; right; right; right; left; exact h
  · right; right; right; right; right; right; right; exact h

theorem eliminateEntryMin_cases (g : Nat) (red white : Int) (e : Nat) :
    eliminateEntryWith colorLoopMin eliminateCond g red white e = e
      ∨ eliminateEntryWith colorLoopMin eliminateCond g red white e = e ||| ELIMINITEBIT := by
  unfold eliminateEntryWith
  simp only []
  split
  · left; rfl
  · split
    · right; rfl
    · rw [flagLoop_eq]
      split
      · right; rfl
      · left; rfl

/-- Whatever `eliminate_wrongs` flags, the variant with the min-based sum flags too. -/
theorem eliminateEntry_min_flags (g : Nat) (red white : Int) (e : Nat)
    (h : eliminated (eliminateEntry g red white e)) :
    eliminated (eliminateEntryWith colorLoopMin eliminateCond g red white e) := by
  by_cases hel : eliminated e
  · have : e &&& ELIMINITEBIT ≠ 0 := fun h0 => (flag_clear_iff e).mp h0 hel
    unfold eliminateEntryWith
    simp only []
    rw [if_pos this]
    exact hel
  · have hne : ¬ (e &&& ELIMINITEBIT ≠ 0) := fun h0 => h0 ((flag_clear_iff e).mpr hel)
    by_cases he : e = combination g
    · unfold eliminateEntryWith
      simp only []
      rw [if_neg hne, if_pos (by rw [mask_eq_combination]; exact he)]
      exact set_flag_eliminated e
    · rw [eliminateEntry_other g red white e hel he] at h
      have hcond : eliminateCond
          (colorLoop (countColors g) (countColors e) ((red + white) % 256).toNat COLORS 0
            ⟨0, 0, 0, 0, 0⟩)
          (permeqLoop g e) red white ((red + white) % 256).toNat = true := by
        by_contra hc
        rw [if_neg hc] at h
        exact hel h
      obtain ⟨r1, r2, r3, r4, r5⟩ := colorLoop_le_min (countColors g) (countColors e)
        ((red + white) % 256).toNat COLORS 0 ⟨0, 0, 0, 0, 0⟩ ⟨0, 0, 0, 0, 0⟩ rfl
        (Nat.le_refl _) rfl rfl rfl
      have hmin := eliminateCond_mono _ _ (permeqLoop g e) red white
        ((red + white) % 256).toNat r1 r2 r3 r4 r5 hcond
      unfold eliminateEntryWith
      simp only []
      rw [if_neg hne, if_neg (by rw [mask_eq_combination]; exact he), flagLoop_eq, if_pos hmin]
      exact set_flag_eliminated e

/-- With the honest score as feedback the variant with the min-based sum keeps the
secret. -/
theorem eliminateEntryMin_honest (g s : Nat) (hs : s < 32768) (hne : s ≠ combination g) :
    eliminateEntryWith colorLoopMin eliminateCond g (exactMatches g s : Nat)
      (whitePegs g s : Nat) s = s := by
  have h1 := exactMatches_le_overlap g s
  have h2 := overlap_le g s
  have h4 := diffCols_add_overlap g s
  have h5 := colorDiff_eq g s
  have hk : ((((exactMatches g s : Nat) : Int) + ((whitePegs g s : Nat) : Int)) % 256).toNat
      = overlap g s := by
    unfold whitePegs; omega
  have hel : ¬ eliminated s := not_eliminated_of_lt s hs
  have hnf : ¬ (s &&& ELIMINITEBIT ≠ 0) := fun h0 => h0 ((flag_clear_iff s).mpr hel)
  have hnb : ∀ c, 0 ≤ c → c < 0 + COLORS →
      ¬ ((elem (countColors g) c > overlap g s
            ∧ elem (countColors s) c ≥ elem (countColors g) c)
        ∨ (overlap g s = 0
            ∧ (elem (countColors s) c ≠ 0 ∧ elem (countColors g) c ≠ 0))) := by
    intro c _ hc
    have hc8 : c < 8 := by change c < 0 + 8 at hc; omega
    rw [countColors_elem g c hc8, countColors_elem s c hc8]
    have := min_le_overlap g s c hc8
    omega
  obtain ⟨r1, _, r3, r4, r5⟩ := colorLoop_le_min (countColors g) (countColors s)
    (overlap g s) COLORS 0 ⟨0, 0, 0, 0, 0⟩ ⟨0, 0, 0, 0, 0⟩ rfl (Nat.le_refl _) rfl rfl rfl
  have r2 := colorLoopMin_noBreak (countColors g) (countColors s) (overlap g s) COLORS 0
    ⟨0, 0, 0, 0, 0⟩ hnb
  rw [colorLoop_noBreak (countColors g) (countColors s) (overlap g s) COLORS 0
    ⟨0, 0, 0, 0, 0⟩ hnb] at r1 r3 r4 r5
  simp only [Nat.zero_add] at r1 r2 r3 r4 r5
  have e1 := range_map_occ g s (fun a b => Int.natAbs ((a : Int) - (b : Int)))
  have e2 := range_map_occ g s (fun a b => min b a)
  have e3 : (List.range' 0 COLORS).countP
      (fun c => decide (elem (countColors s) c > 0 ∧ elem (countColors g) c = 0))
      = diffCols g s := by
    unfold diffCols
    rw [← List.range_eq_range']
    apply List.countP_congr
    intro c hc
    have hc8 : c < 8 := by simpa using hc
    rw [countColors_elem g c hc8, countColors_elem s c hc8]
  simp only [] at e1 e2
  rw [e1] at r1
  rw [e3] at r3
  rw [e2] at r2
  have f1 : ((List.range COLORS).map
      (fun c => Int.natAbs ((occurrences g c : Int) - (occurrences s c : Int)))).sum
      = absDiffSum g s := rfl
  have f2 : ((List.range COLORS).map (fun c => min (occurrences s c) (occurrences g c))).sum
      = overlap g s := by
    unfold overlap
    congr 1
    apply List.map_congr_left
    intro c _
    exact Nat.min_comm _ _
  rw [f1] at r1
  rw [f2] at r2
  have hcd : absDiffSum g s / 2 = colorDiff g s := rfl
  have hcond : ¬ (eliminateCond
      (colorLoopMin (countColors g) (countColors s) (overlap g s) COLORS 0 ⟨0, 0, 0, 0, 0⟩)
      (permeqLoop g s) (exactMatches g s : Nat) (whitePegs g s : Nat) (overlap g s)
        = true) := by
    rw [eliminateCond_iff, permeqLoop_eq, ← r1, r2, ← r3, ← r4, ← r5, hcd]
    unfold whitePegs
    rintro (h | h | h | h | h | h | h | ⟨h, _, h''⟩)
    · omega
    · omega
    · exact h rfl
    · omega
    · omega
    · omega
    · omega
    · omega
  unfold eliminateEntryWith
  simp only []
  rw [if_neg hnf, if_neg (by rw [mask_eq_combination]; exact hne), flagLoop_eq, hk,
    if_neg hcond]

/-- With `red + white > 5` every entry comes out of one iteration of the table loop with
its flag set. -/
theorem eliminateEntry_malformed (g : Nat) (red white : Int) (e : Nat)
    (hr0 : 0 ≤ red) (hr7 : red ≤ 7) (hw0 : 0 ≤ white) (hw7 : white ≤ 7)
    (hsum : red + white > 5) : eliminated (eliminateEntry g red white e) := by
  by_cases hel : eliminated e
  · exact eliminateEntry_keeps_flag g red white e hel
  · by_cases he : e = combination g
    · rw [eliminateEntry_guess g red white e hel he]
      exact set_flag_eliminated e
    · rw [eliminateEntry_other g red white e hel he]
      have hcond : eliminateCond
          (colorLoop (countColors g) (countColors e) ((red + white) % 256).toNat COLORS 0
            ⟨0, 0, 0, 0, 0⟩)
          (permeqLoop g e) red white ((red + white) % 256).toNat = true := by
        rw [eliminateCond_iff]
        right; right; right; right; left
        omega
      rw [if_pos hcond]
      exact set_flag_eliminated e

/-- When neither `break` of the colour loop fired, its counter `colordiff` is the sum of
the absolute count differences over all 8 colours. -/
theorem colorLoop_colordiff (g e k : Nat)
    (hm : (colorLoop (countColors g) (countColors e) k COLORS 0
        ⟨0, 0, 0, 0, 0⟩).morecolorsthanrights = 0)
    (hs : (colorLoop (countColors g) (countColors e) k COLORS 0
        ⟨0, 0, 0, 0, 0⟩).samecolorocc = 0) :
    (colorLoop (countColors g) (countColors e) k COLORS 0 ⟨0, 0, 0, 0, 0⟩).colordiff
      = absDiffSum g e := by
  have hnb : ∀ c, 0 ≤ c → c < 0 + COLORS →
      ¬ ((elem (countColors g) c > k ∧ elem (countColors e) c ≥ elem (countColors g) c)
        ∨ (k = 0 ∧ (elem (countColors e) c ≠ 0 ∧ elem (countColors g) c ≠ 0))) := by
    intro c h1 h2 h3
    have := colorLoop_break (countColors g) (countColors e) k COLORS 0 ⟨0, 0, 0, 0, 0⟩
      ⟨c, h1, h2, h3⟩
    omega
  rw [colorLoop_noBreak (countColors g) (countColors e) k COLORS 0 ⟨0, 0, 0, 0, 0⟩ hnb]
  simp only [Nat.zero_add]
  have e1 := range_map_occ g e (fun a b => Int.natAbs ((a : Int) - (b : Int)))
  simp only [] at e1
  rw [e1]
  rfl

/-! ## Encoding a 16-bit `tmpguess` -/

theorem xorBits_low (c p : Nat) : xorBits (c + 32768 * p) = xorBits c := by
  unfold xorBits
  have hm : (List.range 15).map (bit (c + 32768 * p)) = (List.range 15).map (bit c) := by
    apply List.map_congr_left
    intro i hi
    exact bit_low c p i (List.mem_range.mp hi)
  rw [hm]

theorem validParity_encoded (c : Nat) (hc : c < 32768) :
    validParity (c + 32768 * xorBits c) := by
  unfold validParity
  rw [xorBits_low]
  have := xorBits_le c
  unfold bit
  norm_num
  omega

theorem message_eq (guess : Nat × Nat) (h0 : guess.1 < 256) :
    message guess = 256 * guess.2 + guess.1 := by
  unfold message
  rw [Nat.shiftLeft_eq, Nat.mul_comm, show (256 : Nat) = 2 ^ 8 by norm_num,
    ← Nat.mul_add_lt_is_or (by norm_num; exact h0)]

/-- The 16-bit value `set_new_guess` splits into the two bytes, for a 16-bit `tmpguess`:
bits 0-14 are kept, and a valid bit 15 is kept too. -/
theorem parity_or (m : Nat) (hm : m < 65536) :
    (m ||| ((parityLoop m &&& 0x1) <<< PARITYPOSITION)) % 65536 < 65536
      ∧ combination ((m ||| ((parityLoop m &&& 0x1) <<< PARITYPOSITION)) % 65536)
          = combination m
      ∧ (validParity m →
          (m ||| ((parityLoop m &&& 0x1) <<< PARITYPOSITION)) % 65536 = m) := by
  rw [parityLoop_and_one]
  have hp := xorBits_le m
  have hcases : xorBits m = 0 ∨ xorBits m = 1 := by omega
  rcases hcases with h | h
  · rw [h]
    have h0 : (0 : Nat) <<< PARITYPOSITION = 0 := by decide
    rw [h0, Nat.or_zero, Nat.mod_eq_of_lt hm]
    exact ⟨hm, rfl, fun _ => rfl⟩
  · rw [h]
    have h1 : (1 : Nat) <<< PARITYPOSITION = ELIMINITEBIT := by decide
    have hlt := set_flag_lt m hm
    have hcomb := set_flag_combination m
    have hbit := set_flag_eliminated m
    rw [h1, Nat.mod_eq_of_lt hlt]
    refine ⟨hlt, hcomb, ?_⟩
    intro hv
    unfold validParity at hv
    rw [h] at hv
    unfold eliminated at hbit
    unfold combination at hcomb
    generalize m ||| ELIMINITEBIT = x at hlt hcomb hbit ⊢
    unfold bit at hv hbit
    have e15 : (2 : Nat) ^ 15 = 32768 := by norm_num
    rw [e15] at hv hbit
    omega

theorem encodeGuess_16 (m : Nat) (hm : m < 65536) :
    combination (message (encodeGuess m)) = combination m
      ∧ (validParity m → encodeGuess m = (m % 256, m / 256)) := by
  obtain ⟨h1, h2, h3⟩ := parity_or m hm
  unfold encodeGuess
  simp only []
  rw [message_bytes _ h1]
  refine ⟨h2, ?_⟩
  intro hv
  rw [h3 hv, show (0x00FF : Nat) = 2 ^ 8 - 1 by norm_num, Nat.and_pow_two_sub_one_eq_mod,
    Nat.shiftRight_eq_div_pow]
  refine Prod.ext ?_ ?_
  · norm_num
  · simp only []
    norm_num
    omega

/-! ## Main results -/

/-- C1 (elimination soundness): for every guess buffer and every 15-bit secret `s` other
than the guess's own combination, `eliminate_wrongs` called with the honest score of the
guess against `s` (red = slots holding the same colour, white = colour overlap minus
red) leaves every surviving entry whose value is `s` exactly as it was, flag clear, in
every table. -/
theorem elimination_sound (guess : Nat × Nat) (s : Nat) (table : List Nat) (i : Nat)
    (hs : s < 32768) (hne : s ≠ combination (message guess))
    (hi : table[i]? = some s) :
    (eliminate_wrongs guess (exactMatches (message guess) s : Nat)
        (whitePegs (message guess) s : Nat) table)[i]? = some s := by
  exact eliminate_wrongs_honest guess s table i hs hne hi

theorem elimination_sound_witness :
    (eliminate_wrongs (0xDD, 0x6C) (exactMatches (message (0xDD, 0x6C)) 0 : Nat)
        (whitePegs (message (0xDD, 0x6C)) 0 : Nat) [0])[0]? = some 0 :=
  elimination_sound (0xDD, 0x6C) 0 [0] 0 (by decide) (by decide) rfl

/-- C4 (elimination rule table): for red, white in 0..7, a surviving entry of the table
that is not the guess's own combination is flagged eliminated by `eliminate_wrongs`
exactly when one of the eight conditions of the rule table holds, the counts of the
table being taken over all 8 colours and the differences being signed. -/
theorem elimination_rule_table (guess : Nat × Nat) (red white : Int) (table : List Nat)
    (i e : Nat) (hr0 : 0 ≤ red) (hr7 : red ≤ 7) (hw0 : 0 ≤ white) (hw7 : white ≤ 7)
    (hi : i < COMBINATIONS) (he : table[i]? = some e) (hsurv : ¬ eliminated e)
    (hne : e ≠ combination (message guess)) :
    ∃ e', (eliminate_wrongs guess red white table)[i]? = some e'
      ∧ combination e' = combination e
      ∧ (eliminated e' ↔ ruleTable (message guess) e red white) := by
  refine ⟨eliminateEntry (message guess) red white e, ?_, ?_, ?_⟩
  · rw [eliminate_wrongs_getElem?, he, if_pos hi, Option.map_some']
  · exact eliminateEntry_combination _ _ _ _
  · rw [eliminateEntry_other _ red white e hsurv hne,
      ← cond_iff_ruleTable (message guess) e red white hr0 hr7 hw0 hw7]
    split
    · rename_i h
      exact ⟨fun _ => h, fun _ => set_flag_eliminated e⟩
    · rename_i h
      exact ⟨fun h' => absurd h' hsurv, fun h' => absurd h' h⟩

theorem elimination_rule_table_witness :
    ∃ e', (eliminate_wrongs (0xDD, 0x6C) 1 0 [0x6CDE])[0]? = some e'
      ∧ combination e' = combination 0x6CDE
      ∧ (eliminated e' ↔ ruleTable (message (0xDD, 0x6C)) 0x6CDE 1 0) :=
  elimination_rule_table (0xDD, 0x6C) 1 0 [0x6CDE] 0 0x6CDE (by decide) (by decide)
    (by decide) (by decide) (by decide) rfl (by decide) (by decide)

/-- C5 (combination table contents): after `init_color_permutation`, entry `i` of the
table, for every index `i` below 32768, is a 15-bit value whose slot `k` equals slot
`4 - k` of `i` for each of the five slots, and its bit 15, the eliminated flag, is
clear. -/
theorem table_contents (i : Nat) (hi : i < COMBINATIONS) :
    ∃ e, init_color_permutation[i]? = some e ∧ e < 32768
      ∧ (∀ k, k < SLOTS → slot e k = slot i (4 - k)) ∧ bit e 15 = 0 := by
  refine ⟨permutationEntry i, init_getElem? i hi, permutationEntry_lt i,
    fun k hk => permutationEntry_slot i k hk, ?_⟩
  have := permutationEntry_lt i
  unfold bit
  omega

theorem table_contents_witness :
    ∃ e, init_color_permutation[11]? = some e ∧ e < 32768
      ∧ (∀ k, k < SLOTS → slot e k = slot 11 (4 - k)) ∧ bit e 15 = 0 :=
  table_contents 11 (by decide)

/-- C6 (encoding bijectivity): on the indices below 32768 the slot reversal of
`init_color_permutation` stays below 32768 and is an involution, and every 15-bit
combination occurs in the initial table at exactly one index. -/
theorem encoding_bijective (c : Nat) (hc : c < COMBINATIONS) :
    permutationEntry c < COMBINATIONS
      ∧ permutationEntry (permutationEntry c) = c
      ∧ ∃! i : Nat, init_color_permutation[i]? = some c := by
  refine ⟨permutationEntry_lt c, permutationEntry_involutive c hc, permutationEntry c,
    init_holds_all c hc, ?_⟩
  intro j hj
  by_cases hjl : j < COMBINATIONS
  · rw [init_getElem? j hjl] at hj
    have hj' : permutationEntry j = c := Option.some.inj hj
    rw [← hj', permutationEntry_involutive j hjl]
  · rw [init_getElem?_none j (by omega)] at hj
    cases hj

theorem encoding_bijective_witness :
    permutationEntry 11 < COMBINATIONS
      ∧ permutationEntry (permutationEntry 11) = 11
      ∧ ∃! i : Nat, init_color_permutation[i]? = some 11 :=
  encoding_bijective 11 (by decide)

/-- C8 (feedback decoding): for every reply byte `b` the round loop decodes
error = bits 6-7, white = bits 3-5 and red = bits 0-2 of `b`, so that
`b = 64*error + 8*white + red` with error at most 3 and red, white at most 7. -/
theorem feedback_decoding (b : Nat) (hb : b < 256) :
    (decodeReply b).1 = bit b 6 + 2 * bit b 7
      ∧ (decodeReply b).2.1 = bit b 0 + 2 * bit b 1 + 4 * bit b 2
      ∧ (decodeReply b).2.2 = bit b 3 + 2 * bit b 4 + 4 * bit b 5
      ∧ b = 64 * (decodeReply b).1 + 8 * (decodeReply b).2.2 + (decodeReply b).2.1
      ∧ (decodeReply b).1 ≤ 3 ∧ (decodeReply b).2.1 ≤ 7 ∧ (decodeReply b).2.2 ≤ 7 := by
  rw [decodeReply_eq]
  unfold bit
  norm_num
  omega

theorem feedback_decoding_witness :
    (decodeReply 0x05).1 = 0 ∧ (decodeReply 0x05).2.2 = 0 ∧ (decodeReply 0x05).2.1 = 5 := by
  have h := feedback_decoding 0x05 (by decide)
  have h0 : bit 5 0 = 1 := by decide
  have h1 : bit 5 1 = 0 := by decide
  have h2 : bit 5 2 = 1 := by decide
  have h3 : bit 5 3 = 0 := by decide
  have h4 : bit 5 4 = 0 := by decide
  have h5 : bit 5 5 = 0 := by decide
  have h6 : bit 5 6 = 0 := by decide
  have h7 : bit 5 7 = 0 := by decide
  rw [h0, h1, h2, h3, h4, h5, h6, h7] at h
  exact ⟨h.1, h.2.2.1, h.2.1⟩

/-- C9 (the eliminated flag is monotone): `eliminate_wrongs` keeps the length of the
table, leaves bits 0-14 of every entry unchanged and keeps bit 15 set wherever it was
set, so the number of surviving entries does not grow; `set_new_guess` hands the table
back unchanged. -/
theorem eliminated_flag_monotone (guess : Nat × Nat) (red white : Int) (table : List Nat) :
    (eliminate_wrongs guess red white table).length = table.length
      ∧ (∀ (i e : Nat), table[i]? = some e →
          ∃ e', (eliminate_wrongs guess red white table)[i]? = some e'
            ∧ combination e' = combination e ∧ (eliminated e → eliminated e'))
      ∧ survivors (eliminate_wrongs guess red white table) ≤ survivors table
      ∧ (set_new_guess guess red white table).2 = table := by
  have hpt := eliminate_wrongs_pointwise guess red white table
  refine ⟨eliminate_wrongs_length guess red white table, hpt, ?_, rfl⟩
  exact survivors_le guess red white table

/-- C10 (the previous guess is always eliminated): on a table of 32768 16-bit entries
that holds every 15-bit combination, after `eliminate_wrongs` there is an entry whose
bits 0-14 equal bits 0-14 of the guess message, and every such entry has its eliminated
flag set, whatever the feedback and whatever bit 15 of the guess message is. -/
theorem previous_guess_eliminated (guess : Nat × Nat) (red white : Int) (table : List Nat)
    (hlen : table.length = COMBINATIONS) (hwf : ∀ e, e ∈ table → e < 65536)
    (hall : ∀ c, c < COMBINATIONS → ∃ (i e : Nat), table[i]? = some e ∧ combination e = c) :
    (∃ (i e' : Nat), (eliminate_wrongs guess red white table)[i]? = some e'
        ∧ combination e' = combination (message guess) ∧ eliminated e')
      ∧ (∀ (i e' : Nat), (eliminate_wrongs guess red white table)[i]? = some e' →
          combination e' = combination (message guess) → eliminated e') := by
  have hpt : ∀ (i e : Nat), table[i]? = some e → combination e = combination (message guess) →
      (eliminate_wrongs guess red white table)[i]?
          = some (eliminateEntry (message guess) red white e)
        ∧ eliminated (eliminateEntry (message guess) red white e) := by
    intro i e he hc
    have hil : i < COMBINATIONS := by
      rcases List.getElem?_eq_some.mp he with ⟨hl, _⟩
      omega
    rw [eliminate_wrongs_getElem?, he, if_pos hil, Option.map_some']
    refine ⟨rfl, ?_⟩
    by_cases hel : eliminated e
    · exact eliminateEntry_keeps_flag _ _ _ _ hel
    · have hlt : e < 32768 :=
        lt_of_not_eliminated e (hwf e (List.getElem?_mem he)) hel
      have hce : e = combination (message guess) := by
        rw [← hc]; unfold combination; omega
      rw [eliminateEntry_guess _ red white e hel hce]
      exact set_flag_eliminated e
  constructor
  · obtain ⟨i, e, he, hc⟩ := hall (combination (message guess))
      (Nat.mod_lt _ (by norm_num))
    obtain ⟨h1, h2⟩ := hpt i e he hc
    exact ⟨i, _, h1, by rw [eliminateEntry_combination]; exact hc, h2⟩
  · intro i e' he' hc
    have hil : i < table.length := by
      rcases List.getElem?_eq_some.mp he' with ⟨hl, _⟩
      rw [eliminate_wrongs_length] at hl
      exact hl
    have he : table[i]? = some table[i] := List.getElem?_eq_getElem hil
    have hmap := eliminate_wrongs_getElem? guess red white table i
    rw [he, if_pos (by omega), Option.map_some', he'] at hmap
    have hee : e' = eliminateEntry (message guess) red white table[i] := Option.some.inj hmap
    have hc' : combination table[i] = combination (message guess) := by
      rw [← hc, hee, eliminateEntry_combination]
    rw [hee]
    exact (hpt i _ he hc').2

theorem previous_guess_eliminated_witness :
    (∃ (i e' : Nat), (eliminate_wrongs (0xDD, 0xEC) 1 2 init_color_permutation)[i]? = some e'
        ∧ combination e' = combination (message (0xDD, 0xEC)) ∧ eliminated e')
      ∧ (∀ (i e' : Nat),
          (eliminate_wrongs (0xDD, 0xEC) 1 2 init_color_permutation)[i]? = some e' →
          combination e' = combination (message (0xDD, 0xEC)) → eliminated e') :=
  previous_guess_eliminated (0xDD, 0xEC) 1 2 init_color_permutation init_length
    (fun e he => Nat.lt_trans (init_mem_lt e he) (by decide))
    (fun c hc => ⟨permutationEntry c, c, init_holds_all c hc, Nat.mod_eq_of_lt hc⟩)

/-- C3 (guess selection rule): for a table of 16-bit entries with at least one surviving
entry and red, white in 0..7, bits 0-14 of the message `set_new_guess` emits are the
value the selection rule names: the lowest-index surviving entry with exactly 3 distinct
colours and a colour occurring at least 3 times when red + white = 0 and such an entry
exists; otherwise the lowest-index surviving entry with at least 2 colours absent from
the previous guess when red + white ≥ 1 and such an entry exists; otherwise the
lowest-index surviving entry. -/
theorem guess_selection_rule (guess : Nat × Nat) (red white : Int) (table : List Nat)
    (hr0 : 0 ≤ red) (hr7 : red ≤ 7) (hw0 : 0 ≤ white) (hw7 : white ≤ 7)
    (hlen : table.length ≤ COMBINATIONS) (hwf : ∀ e, e ∈ table → e < 65536)
    (hsurv : ∃ e, e ∈ table ∧ ¬ eliminated e) :
    selectionRule (message guess) red white table
      = some (combination (message (set_new_guess guess red white table).1)) := by
  obtain ⟨e, he, _, _, _, hc⟩ :=
    set_new_guess_selects guess red white table (by omega) hlen hwf hsurv
  rw [he, hc]

theorem guess_selection_rule_witness :
    selectionRule (message (0xDD, 0x6C)) 1 1 [0x8001, 0x0002, 0x0053]
      = some (combination
          (message (set_new_guess (0xDD, 0x6C) 1 1 [0x8001, 0x0002, 0x0053]).1)) :=
  guess_selection_rule (0xDD, 0x6C) 1 1 [0x8001, 0x0002, 0x0053] (by decide) (by decide)
    (by decide) (by decide) (by decide) (by decide) ⟨0x0002, by decide, by decide⟩

/-- C7 (parity correctness): whenever the value `set_new_guess` selects is a 15-bit
combination, the 16-bit message it emits (`guess[1]` high byte, `guess[0]` low byte) has
that combination in bits 0-14 and the XOR of those bits in bit 15, so that the number of
1-bits among its 16 bits is even. -/
theorem parity_correct (guess : Nat × Nat) (red white : Int) (table : List Nat)
    (hsel : selectGuess guess red white table < 32768) :
    combination (message (set_new_guess guess red white table).1)
        = selectGuess guess red white table
      ∧ bit (message (set_new_guess guess red white table).1) 15
        = xorBits (selectGuess guess red white table)
      ∧ onesCount (message (set_new_guess guess red white table).1) % 2 = 0 := by
  unfold set_new_guess
  simp only []
  rw [message_encodeGuess _ hsel]
  have hx := xorBits_le (selectGuess guess red white table)
  refine ⟨?_, ?_, onesCount_encoded _ hsel⟩
  · unfold combination; omega
  · unfold bit; norm_num; omega

theorem parity_correct_witness :
    combination (message (set_new_guess (0xDD, 0x6C) 0 0 [0x0053]).1)
        = selectGuess (0xDD, 0x6C) 0 0 [0x0053]
      ∧ bit (message (set_new_guess (0xDD, 0x6C) 0 0 [0x0053]).1) 15
        = xorBits (selectGuess (0xDD, 0x6C) 0 0 [0x0053])
      ∧ onesCount (message (set_new_guess (0xDD, 0x6C) 0 0 [0x0053]).1) % 2 = 0 :=
  parity_correct (0xDD, 0x6C) 0 0 [0x0053]
    (by
      rw [selectGuess_eq (0xDD, 0x6C) 0 0 [0x0053] (by decide) (by decide) (by decide)]
      decide)

/-- C2 (bounded termination of the closed loop): for every 15-bit secret, the round loop
of `main`, started on the table of `init_color_permutation` with the guess bytes
0xDD, 0x6C and answered by an honest arbiter, stops with error 0 and red = 5 after at
most 32768 rounds; it sends one guess per round, no combination twice, and the last
guess sent is the secret. -/
theorem bounded_termination (secret : Nat) (hs : secret < COMBINATIONS) :
    ∃ run, roundLoop (fun _ g => honestReply secret g) COMBINATIONS 0 initialGuess
          init_color_permutation [] = some run
      ∧ run.error = 0 ∧ run.red = 5 ∧ run.rounds ≤ COMBINATIONS
      ∧ run.sent.length = run.rounds
      ∧ (run.sent.map (fun g => combination (message g))).Nodup
      ∧ ∃ g, run.sent.getLast? = some g ∧ combination (message g) = secret := by
  have hg : combination (message initialGuess) < 32768 := Nat.mod_lt _ (by norm_num)
  obtain ⟨run, h1, h2, h3, _, h5, h6, h7, h8⟩ :=
    roundLoop_honest secret hs COMBINATIONS 0 initialGuess init_color_permutation []
      (Nat.le_of_eq init_length)
      (fun e he => Nat.lt_trans (init_mem_lt e he) (by norm_num))
      (List.getElem?_mem (init_holds_all secret hs))
      (List.getElem?_mem (init_holds_all _ hg))
      (fun g' hg' => absurd hg' (List.not_mem_nil g'))
      List.nodup_nil
      (by
        unfold survivors
        have h := @List.countP_le_length _ (fun e => decide (¬ eliminated e))
          init_color_permutation
        rw [init_length] at h
        exact h)
  refine ⟨run, h1, h2, h3, by omega, ?_, h7, h8⟩
  rw [h6]
  simp

theorem bounded_termination_witness :
    ∃ run, roundLoop (fun _ g => honestReply 12345 g) COMBINATIONS 0 initialGuess
          init_color_permutation [] = some run
      ∧ run.error = 0 ∧ run.red = 5 ∧ run.rounds ≤ COMBINATIONS
      ∧ run.sent.length = run.rounds
      ∧ (run.sent.map (fun g => combination (message g))).Nodup
      ∧ ∃ g, run.sent.getLast? = some g ∧ combination (message g) = 12345 :=
  bounded_termination 12345 (by decide)

/-- C11 (session termination and outcome): with the replies given as a sequence of
bytes, if byte `k` is the first one with error ≠ 0 or red = 5, the round loop of `main`
runs exactly `k + 1` rounds and ends on that byte; `main` then returns 2 (parity error)
when error = 1 whatever red and white are, 3 (game lost) when error = 2, 4 (both) when
error = 3, and 0 exactly when error = 0 and red = 5; the four values are pairwise
distinct. -/
theorem session_outcome (bytes : Nat → Nat) (k fuel : Nat) (hfuel : k < fuel)
    (hcont : ∀ j, j < k → (decodeReply (bytes j % 256)).1 = 0
      ∧ (decodeReply (bytes j % 256)).2.1 ≠ 5)
    (hstop : (decodeReply (bytes k % 256)).1 ≠ 0 ∨ (decodeReply (bytes k % 256)).2.1 = 5) :
    ∃ run, roundLoop (fun r _ => bytes r) fuel 0 initialGuess init_color_permutation []
          = some run
      ∧ run.rounds = k + 1
      ∧ run.error = (decodeReply (bytes k % 256)).1
      ∧ run.red = (decodeReply (bytes k % 256)).2.1
      ∧ run.white = (decodeReply (bytes k % 256)).2.2
      ∧ (run.error = 1 → exitStatus run.error = EXIT_PARITY_ERROR)
      ∧ (run.error = 2 → exitStatus run.error = EXIT_GAME_LOST)
      ∧ (run.error = 3 → exitStatus run.error = EXIT_MULTIPLE_ERRORS)
      ∧ (exitStatus run.error = 0 ↔ run.error = 0 ∧ run.red = 5)
      ∧ [0, EXIT_PARITY_ERROR, EXIT_GAME_LOST, EXIT_MULTIPLE_ERRORS].Nodup := by
  obtain ⟨run, h1, h2, h3, h4, h5, _⟩ :=
    roundLoop_bytes bytes k fuel 0 initialGuess init_color_permutation [] hfuel
      (fun j hj => by rw [Nat.zero_add]; exact hcont j hj)
      (by rw [Nat.zero_add]; exact hstop)
  rw [Nat.zero_add] at h2 h3 h4 h5
  have hle : run.error ≤ 3 := by rw [h3]; exact decodeReply_error_le _
  obtain ⟨c1, c2, c3, c0⟩ := exitStatus_cases run.error hle
  refine ⟨run, h1, h2, h3, h4, h5, c1, c2, c3, ?_, by decide⟩
  rw [c0]
  constructor
  · intro he
    refine ⟨he, ?_⟩
    rw [h4]
    rcases hstop with h | h
    · rw [h3] at he; exact absurd he h
    · exact h
  · exact fun h => h.1

theorem session_outcome_witness :
    ∃ run, roundLoop (fun r _ => [0x0A, 0x11, 0x7F].getD r 0) 5 0 initialGuess
          init_color_permutation [] = some run
      ∧ run.rounds = 2 + 1
      ∧ run.error = (decodeReply ([0x0A, 0x11, 0x7F].getD 2 0 % 256)).1
      ∧ run.red = (decodeReply ([0x0A, 0x11, 0x7F].getD 2 0 % 256)).2.1
      ∧ run.white = (decodeReply ([0x0A, 0x11, 0x7F].getD 2 0 % 256)).2.2
      ∧ (run.error = 1 → exitStatus run.error = EXIT_PARITY_ERROR)
      ∧ (run.error = 2 → exitStatus run.error = EXIT_GAME_LOST)
      ∧ (run.error = 3 → exitStatus run.error = EXIT_MULTIPLE_ERRORS)
      ∧ (exitStatus run.error = 0 ↔ run.error = 0 ∧ run.red = 5)
      ∧ [0, EXIT_PARITY_ERROR, EXIT_GAME_LOST, EXIT_MULTIPLE_ERRORS].Nodup :=
  session_outcome (fun r => [0x0A, 0x11, 0x7F].getD r 0) 2 5 (by decide)
    (by
      intro j hj
      interval_cases j <;> decide)
    (by decide)

/-- C12 (an eliminated combination is never selected): for every table of 16-bit entries
with at least one surviving entry, every previous guess and every feedback, bits 0-14
of the message `set_new_guess` emits are the value of an entry of the table whose
eliminated flag is clear. -/
theorem eliminated_never_selected (guess : Nat × Nat) (red white : Int) (table : List Nat)
    (hlen : table.length ≤ COMBINATIONS) (hwf : ∀ e, e ∈ table → e < 65536)
    (hsurv : ∃ e, e ∈ table ∧ ¬ eliminated e) :
    ∃ e, e ∈ table ∧ ¬ eliminated e
      ∧ combination (message (set_new_guess guess red white table).1) = e := by
  obtain ⟨hmem, hlt⟩ := selectGuess_mem guess red white table hlen hwf hsurv
  refine ⟨selectGuess guess red white table, hmem, not_eliminated_of_lt _ hlt, ?_⟩
  unfold set_new_guess
  simp only []
  rw [message_encodeGuess _ hlt]
  have := xorBits_le (selectGuess guess red white table)
  unfold combination
  omega

theorem eliminated_never_selected_witness :
    ∃ e, e ∈ [0x8001, 0x0000, 0x0053] ∧ ¬ eliminated e
      ∧ combination (message (set_new_guess (0xDD, 0x6C) 2 1 [0x8001, 0x0000, 0x0053]).1)
        = e :=
  eliminated_never_selected (0xDD, 0x6C) 2 1 [0x8001, 0x0000, 0x0053] (by decide)
    (by decide) ⟨0x0000, by decide, by decide⟩

/-- C13 (initial guess): the opening message with the bytes 0xDD (low) and 0x6C (high)
is 0x6CDD; its slot colours are 5,3,3,6,6, slot 0 first, that is exactly 3 distinct
colours in a 2-2-1 pattern, and its bit 15 equals the XOR of its bits 0-14. -/
theorem initial_guess :
    message initialGuess = 0x6CDD
      ∧ slots (message initialGuess) = [5, 3, 3, 6, 6]
      ∧ distinctColours (message initialGuess) = 3
      ∧ pattern221 (message initialGuess)
      ∧ validParity (message initialGuess) := by decide

/-- C14 (explore rule pattern, as documented in the source): after a first round
answered with red = 0 and white = 0, `set_new_guess` leaves the table loop through the
branch for "nothing was right" (`preferedguess` is -1) and selects 8704, whose slot
colours are 0,0,0,1,2: a 3-1-1 pattern, not the documented 2-2-1 pattern. No candidate
that passes the test of that branch has the 2-2-1 pattern. -/
theorem explore_rule_selects_311 :
    (guessLoop (countColors (message initialGuess)) (0 + 0)
        (eliminate_wrongs initialGuess 0 0 init_color_permutation) COMBINATIONS 0
        ⟨0, message initialGuess, 0⟩).preferedguess = -1
      ∧ selectGuess initialGuess 0 0
          (eliminate_wrongs initialGuess 0 0 init_color_permutation) = 8704
      ∧ slots 8704 = [0, 0, 0, 1, 2]
      ∧ ¬ pattern221 8704
      ∧ ∀ e, explorePattern e → ¬ pattern221 e := by
  have hlen : (eliminate_wrongs initialGuess 0 0 init_color_permutation).length
      ≤ COMBINATIONS := by
    rw [eliminate_wrongs_length, init_length]
  obtain ⟨h1, _⟩ := guessScan_explore (message initialGuess)
    (eliminate_wrongs initialGuess 0 0 init_color_permutation) ⟨0, message initialGuess, 0⟩
  obtain ⟨j1, j2⟩ := h1 8704 first_round_explore
  refine ⟨?_, ?_, by decide, by decide, explorePattern_not_221⟩
  · rw [guessLoop_eq_scan, List.drop_zero, List.take_of_length_le hlen]
    exact j2
  · unfold selectGuess
    simp only []
    rw [show (0 : Int) + 0 = 0 from rfl, guessLoop_eq_scan, List.drop_zero,
      List.take_of_length_le hlen, j1, j2]
    decide

/-- C15 (rule 8 is redundant): for every table, guess and feedback, the filter obtained
from `eliminate_wrongs` by deleting the condition `(red == 0 && white && permeq > 0)`
from its final disjunction leaves exactly the table `eliminate_wrongs` leaves, the
two disjunctions being equal. -/
theorem rule8_redundant (guess : Nat × Nat) (red white : Int) (table : List Nat) :
    eliminate_wrongsWith colorLoop eliminateCondNoRule8 guess red white table
        = eliminate_wrongs guess red white table
      ∧ ∀ (sc : ColorScan) (permeq k : Nat),
          eliminateCondNoRule8 sc permeq red white k = eliminateCond sc permeq red white k := by
  have hf : eliminateCondNoRule8 = eliminateCond := by
    funext sc p r w k
    exact eliminateCondNoRule8_eq sc p r w k
  refine ⟨?_, fun sc p k => eliminateCondNoRule8_eq sc p red white k⟩
  rw [hf]
  rfl

/-- C16 (the under-counted overlap only weakens pruning): `colorEqSum` is at most the
sum over the colours of the smaller count; every entry that `eliminate_wrongs` leaves
flagged is also left flagged by the variant whose colour loop sums the smaller counts;
and that variant, called with the honest score, leaves a surviving entry holding the
secret unchanged. -/
theorem undercount_weakens (guess : Nat × Nat) (red white : Int) (table : List Nat) :
    (∀ e, colorEqSum (message guess) e ≤ overlap (message guess) e)
      ∧ (∀ (i e' : Nat), (eliminate_wrongs guess red white table)[i]? = some e' →
          eliminated e' →
          ∃ e'', (eliminate_wrongsWith colorLoopMin eliminateCond guess red white table)[i]?
              = some e'' ∧ eliminated e'')
      ∧ (∀ (s i : Nat), s < 32768 → s ≠ combination (message guess) →
          table[i]? = some s →
          (eliminate_wrongsWith colorLoopMin eliminateCond guess
              (exactMatches (message guess) s : Nat) (whitePegs (message guess) s : Nat)
              table)[i]? = some s) := by
  refine ⟨fun e => colorEqSum_le_overlap (message guess) e, ?_, ?_⟩
  · intro i e' he' hel
    rw [eliminate_wrongs_getElem?] at he'
    rw [eliminate_wrongsWith_getElem?]
    by_cases hi : i < COMBINATIONS
    · rw [if_pos hi] at he' ⊢
      cases ht : table[i]? with
      | none => rw [ht] at he'; cases he'
      | some e =>
        rw [ht, Option.map_some'] at he'
        have hee : eliminateEntry (message guess) red white e = e' := Option.some.inj he'
        rw [Option.map_some']
        exact ⟨_, rfl, eliminateEntry_min_flags _ red white e (by rw [hee]; exact hel)⟩
    · rw [if_neg hi] at he' ⊢
      exact ⟨e', he', hel⟩
  · intro s i hs hne hi
    rw [eliminate_wrongsWith_getElem?, hi]
    by_cases h : i < COMBINATIONS
    · rw [if_pos h, Option.map_some', eliminateEntryMin_honest _ s hs hne]
    · rw [if_neg h]

/-- C17 (the filter is necessary-only): for the guess with the slot colours 0,0,1,2,3
and the feedback red = 0, white = 2, the candidate with the slot colours 1,1,0,0,0 has
the true score red = 0, white = 3 against the guess, yet `eliminate_wrongs` leaves its
entry of the initial table unchanged, flag clear. -/
theorem filter_not_exhaustive :
    slots (message (0x40, 0x34)) = [0, 0, 1, 2, 3] ∧ slots 9 = [1, 1, 0, 0, 0]
      ∧ exactMatches (message (0x40, 0x34)) 9 = 0 ∧ whitePegs (message (0x40, 0x34)) 9 = 3
      ∧ ((0 : Int) + 2 ≤ 5)
      ∧ init_color_permutation[4608]? = some 9
      ∧ (eliminate_wrongs (0x40, 0x34) 0 2 init_color_permutation)[4608]? = some 9
      ∧ ¬ eliminated 9 := by
  have hi : init_color_permutation[4608]? = some 9 := by
    rw [init_getElem? 4608 (by decide)]
    decide
  refine ⟨by decide, by decide, by decide, by decide, by decide, hi, ?_, by decide⟩
  rw [eliminate_wrongs_getElem?, if_pos (by decide), hi, Option.map_some']
  decide

/-- C18 (malformed feedback wipes the candidate set): for every table of at most 32768
entries, every guess and every red, white in 0..7 with red + white > 5, every entry of
the table `eliminate_wrongs` leaves has its eliminated flag set. -/
theorem malformed_feedback_wipes (guess : Nat × Nat) (red white : Int) (table : List Nat)
    (hr0 : 0 ≤ red) (hr7 : red ≤ 7) (hw0 : 0 ≤ white) (hw7 : white ≤ 7)
    (hsum : red + white > 5) (hlen : table.length ≤ COMBINATIONS) :
    (eliminate_wrongs guess red white table).length = table.length
      ∧ (∀ e', e' ∈ eliminate_wrongs guess red white table → eliminated e')
      ∧ survivors (eliminate_wrongs guess red white table) = 0 := by
  have hall : ∀ e', e' ∈ eliminate_wrongs guess red white table → eliminated e' := by
    intro e' hmem
    obtain ⟨i, hi⟩ := List.getElem?_of_mem hmem
    have hil : i < table.length := by
      rcases List.getElem?_eq_some.mp hi with ⟨hl, _⟩
      rw [eliminate_wrongs_length] at hl
      exact hl
    have he : table[i]? = some table[i] := List.getElem?_eq_getElem hil
    rw [eliminate_wrongs_getElem?, he, if_pos (by omega), Option.map_some'] at hi
    rw [← Option.some.inj hi]
    exact eliminateEntry_malformed _ red white _ hr0 hr7 hw0 hw7 hsum
  refine ⟨eliminate_wrongs_length guess red white table, hall, ?_⟩
  unfold survivors
  rw [List.countP_eq_zero]
  intro e' hmem
  simp [hall e' hmem]

theorem malformed_feedback_wipes_witness :
    (eliminate_wrongs (0xDD, 0x6C) 3 3 [0x0053, 0x8001, 0x6CDD]).length
        = [0x0053, 0x8001, 0x6CDD].length
      ∧ (∀ e', e' ∈ eliminate_wrongs (0xDD, 0x6C) 3 3 [0x0053, 0x8001, 0x6CDD] →
          eliminated e')
      ∧ survivors (eliminate_wrongs (0xDD, 0x6C) 3 3 [0x0053, 0x8001, 0x6CDD]) = 0 :=
  malformed_feedback_wipes (0xDD, 0x6C) 3 3 [0x0053, 0x8001, 0x6CDD] (by decide) (by decide)
    (by decide) (by decide) (by decide) (by decide)

/-- C19 (no survivor means the previous guess is repeated): for a guess buffer of two
bytes, a table of at most 32768 16-bit entries and every feedback: if every entry is
eliminated, `set_new_guess` leaves bits 0-14 of the guess message unchanged, and leaves
both bytes unchanged when the incoming message has valid parity; and whether or not an
entry survives, a guess message with valid parity goes out with valid parity. -/
theorem no_survivor_repeats_guess (guess : Nat × Nat) (red white : Int) (table : List Nat)
    (h0 : guess.1 < 256) (h1 : guess.2 < 256) (hlen : table.length ≤ COMBINATIONS)
    (hwf : ∀ e, e ∈ table → e < 65536) :
    ((∀ e, e ∈ table → eliminated e) →
        combination (message (set_new_guess guess red white table).1)
            = combination (message guess)
          ∧ (validParity (message guess) → (set_new_guess guess red white table).1 = guess))
      ∧ (validParity (message guess) →
          validParity (message (set_new_guess guess red white table).1)) := by
  have hmsg := message_eq guess h0
  have hm : message guess < 65536 := by omega
  have hno : (∀ e, e ∈ table → eliminated e) →
      combination (message (set_new_guess guess red white table).1)
          = combination (message guess)
        ∧ (validParity (message guess) → (set_new_guess guess red white table).1 = guess) := by
    intro hall
    obtain ⟨e1, e2⟩ := encodeGuess_16 (message guess) hm
    unfold set_new_guess
    simp only []
    rw [selectGuess_no_survivor guess red white table hlen hall]
    refine ⟨e1, fun hv => ?_⟩
    rw [e2 hv, hmsg]
    refine Prod.ext ?_ ?_ <;> simp only [] <;> omega
  refine ⟨hno, ?_⟩
  intro hv
  by_cases hs : ∃ e, e ∈ table ∧ ¬ eliminated e
  · obtain ⟨_, hlt⟩ := selectGuess_mem guess red white table hlen hwf hs
    unfold set_new_guess
    simp only []
    rw [message_encodeGuess _ hlt]
    exact validParity_encoded _ hlt
  · have hall : ∀ e, e ∈ table → eliminated e := by
      intro e he
      by_contra hne
      exact hs ⟨e, he, hne⟩
    rw [((hno hall).2 hv)]
    exact hv

theorem no_survivor_repeats_guess_witness :
    ((∀ e, e ∈ [0x8001, 0x8053] → eliminated e) →
        combination (message (set_new_guess (0xDD, 0x6C) 1 2 [0x8001, 0x8053]).1)
            = combination (message (0xDD, 0x6C))
          ∧ (validParity (message (0xDD, 0x6C)) →
              (set_new_guess (0xDD, 0x6C) 1 2 [0x8001, 0x8053]).1 = (0xDD, 0x6C)))
      ∧ (validParity (message (0xDD, 0x6C)) →
          validParity (message (set_new_guess (0xDD, 0x6C) 1 2 [0x8001, 0x8053]).1)) :=
  no_survivor_repeats_guess (0xDD, 0x6C) 1 2 [0x8001, 0x8053] (by decide) (by decide)
    (by decide) (by decide)

/-- C20 (meaning of `colorDiff`): for every guess and candidate, the sum over the 8
colours of the absolute count differences is even and its half, `colorDiff`, is 5 minus
the colour overlap; hence the rule `colorDiff > 5 - (red + white)` holds exactly when
the overlap is smaller than red + white. In `eliminate_wrongs`, whenever neither `break`
of the colour loop fired, the counter `colordiff` is that sum and the test
`colordiff/2 > 5 - kindarights` holds exactly when the overlap is smaller than
`kindarights`. -/
theorem colorDiff_meaning (g e : Nat) (red white : Int) :
    absDiffSum g e % 2 = 0
      ∧ colorDiff g e + overlap g e = 5
      ∧ ((colorDiff g e : Int) > (SLOTS : Int) - (red + white)
          ↔ (overlap g e : Int) < red + white)
      ∧ ∀ k : Nat,
          (colorLoop (countColors g) (countColors e) k COLORS 0
            ⟨0, 0, 0, 0, 0⟩).morecolorsthanrights = 0 →
          (colorLoop (countColors g) (countColors e) k COLORS 0
            ⟨0, 0, 0, 0, 0⟩).samecolorocc = 0 →
          (colorLoop (countColors g) (countColors e) k COLORS 0 ⟨0, 0, 0, 0, 0⟩).colordiff
              = absDiffSum g e
            ∧ ((((colorLoop (countColors g) (countColors e) k COLORS 0
                  ⟨0, 0, 0, 0, 0⟩).colordiff / 2 : Nat) : Int) > 5 - (k : Int)
                ↔ overlap g e < k) := by
  have h1 := absDiffSum_add_overlap g e
  have h2 := overlap_le g e
  have h3 := colorDiff_eq g e
  refine ⟨by omega, by omega, ?_, ?_⟩
  · simp only [SLOTS]
    omega
  · intro k hm hs
    have hc := colorLoop_colordiff g e k hm hs
    refine ⟨hc, ?_⟩
    rw [hc]
    have : absDiffSum g e / 2 = colorDiff g e := rfl
    rw [this]
    omega

end Client
